import Mathlib

set_option maxHeartbeats 1000000
set_option maxRecDepth 4000

/-!
Shallow embedding of `vessel_scoring/add_measures.py`.

Records are Python dicts mapping string keys to values.  A value is either
`None`, a plain number (Python floats/ints, modelled exactly as rationals),
a `datetime` instant (modelled by its rational timeline coordinate), a
`timedelta` duration (rational seconds), or a string.  Fallible Python code
(`TypeError`, `AssertionError`, `AttributeError`, `StopIteration`) is
modelled with `Except`.
-/

inductive Value where
  | none : Value
  | num : ℚ → Value
  | dt : ℚ → Value
  | dur : ℚ → Value
  | str : String → Value
deriving DecidableEq

inductive PyErr where
  | typeError : PyErr
  | assertionError : PyErr
  | attributeError : PyErr
  | stopIteration : PyErr
  | fuelOut : PyErr
deriving DecidableEq

/-- A Python dict with string keys: an association list with (at most) the
dict's key-lookup and in-place-update behaviour used through the code. -/
abbrev Record := List (String × Value)

instance exceptDecEq {ε α : Type} [DecidableEq ε] [DecidableEq α] :
    DecidableEq (Except ε α) := fun x y =>
  match x, y with
  | .ok a, .ok b =>
      if h : a = b then isTrue (by rw [h])
      else isFalse (fun he => by cases he; exact h rfl)
  | .error a, .error b =>
      if h : a = b then isTrue (by rw [h])
      else isFalse (fun he => by cases he; exact h rfl)
  | .ok _, .error _ => isFalse (fun he => by cases he)
  | .error _, .ok _ => isFalse (fun he => by cases he)

/-- Key lookup, `row[k]` / `k in row` basis (first matching key; the keys
of a Python dict are distinct, so first-match lookup agrees with it). -/
def pyLookup : Record → String → Option Value
  | [], _ => none
  | (k', v) :: rest, k => if k' = k then some v else pyLookup rest k

/-- Python `k in row`. -/
def hasKey (r : Record) (k : String) : Bool := (pyLookup r k).isSome

/-- Python `row.get(k)`: `None` when the key is absent (and also when the
stored value is `None`, which the code never distinguishes via `get`). -/
def pyGet (r : Record) (k : String) : Value := (pyLookup r k).getD Value.none

/-- Python `row[k] = v`: replace the value at `k` in place if present,
otherwise append the new key. -/
def setVal (k : String) (v : Value) : Record → Record
  | [] => [(k, v)]
  | (k', v') :: rest =>
      if k' = k then (k, v) :: rest else (k', v') :: setVal k v rest

/-- Python `row.update(kvs)`: set every pair, left to right. -/
def updateRec (r : Record) (kvs : List (String × Value)) : Record :=
  kvs.foldl (fun acc kv => setVal kv.1 kv.2 acc) r

/-- Python `-` on the value types the pipeline meets: number minus number is
a number, datetime minus datetime is a timedelta, datetime minus timedelta
is a datetime, timedelta minus timedelta is a timedelta.  All other
combinations raise `TypeError`.  (CPython 2 would also accept some of them
in bare comparisons; the pipeline only subtracts.) -/
def valSub : Value → Value → Except PyErr Value
  | Value.num a, Value.num b => .ok (Value.num (a - b))
  | Value.dt a, Value.dt b => .ok (Value.dur (a - b))
  | Value.dt a, Value.dur b => .ok (Value.dt (a - b))
  | Value.dur a, Value.dur b => .ok (Value.dur (a - b))
  | _, _ => .error PyErr.typeError

/-- Python `abs` on values: numbers and timedeltas support it, `None`,
datetimes and strings raise `TypeError`. -/
def valAbs : Value → Except PyErr Value
  | Value.num a => .ok (Value.num |a|)
  | Value.dur a => .ok (Value.dur |a|)
  | _ => .error PyErr.typeError

/-- Python `v.total_seconds()`: only timedeltas have the attribute. -/
def totalSeconds : Value → Except PyErr Value
  | Value.dur a => .ok (Value.num a)
  | _ => .error PyErr.attributeError

/-- Track identity `(row.get('mmsi'), row.get('seg_id'))` used by both
stateful stages, with `None` substituted for absent keys. -/
def trackId (r : Record) : Value × Value := (pyGet r "mmsi", pyGet r "seg_id")

/-!
`AddNormalizedMeasures` (add_measures.py lines 12-45).

`numpy.cos(numpy.radians(course)) / numpy.sqrt(2)` and the matching `sin`
expression are evaluations of an external numeric library on a number; they
are modelled as an arbitrary pair of functions supplied in an environment,
which every theorem quantifies over.
-/

structure NormEnv where
  cosCourse : ℚ → ℚ
  sinCourse : ℚ → ℚ

/-- Lines 14-16: `heading / 360.0` needs a number; any other present value
raises `TypeError` (uncaught, so processing aborts). -/
def stepHeading (row : Record) : Except PyErr Record :=
  match pyGet row "heading" with
  | Value.none => .ok row
  | Value.num h => .ok (setVal "measure_heading" (Value.num (h / 360)) row)
  | _ => .error PyErr.typeError

/-- Lines 18-22: `measure_course`, then `measure_cos_course`, then
`measure_sin_course`. -/
def stepCourse (env : NormEnv) (row : Record) : Except PyErr Record :=
  match pyGet row "course" with
  | Value.none => .ok row
  | Value.num c =>
      .ok (setVal "measure_sin_course" (Value.num (env.sinCourse c))
            (setVal "measure_cos_course" (Value.num (env.cosCourse c))
              (setVal "measure_course" (Value.num (c / 360)) row)))
  | _ => .error PyErr.typeError

/-- Lines 24-26: `measure_speed = 1.0 - min(1.0, speed / 17.0)`. -/
def stepSpeed (row : Record) : Except PyErr Record :=
  match pyGet row "speed" with
  | Value.none => .ok row
  | Value.num s => .ok (setVal "measure_speed" (Value.num (1 - min 1 (s / 17))) row)
  | _ => .error PyErr.typeError

/-- Lines 28-33: `measure_turn = min(1.0, abs(turn) / 126.0)` inside a
`try` whose handler runs `assert False`, so a present non-numeric `turn`
aborts with `AssertionError`. -/
def stepTurn (row : Record) : Except PyErr Record :=
  match pyGet row "turn" with
  | Value.none => .ok row
  | Value.num t => .ok (setVal "measure_turn" (Value.num (min 1 (|t| / 126))) row)
  | _ => .error PyErr.assertionError

/-- Lines 39-44: gated on key presence (`'distance_from_port' in row`), the
stored value `None` maps to `1.0`, a number `d` to `min(1.0, d / 30.0)`. -/
def stepDfp (row : Record) : Except PyErr Record :=
  if hasKey row "distance_from_port" then
    match pyGet row "distance_from_port" with
    | Value.none => .ok (setVal "measure_distance_from_port" (Value.num 1) row)
    | Value.num d =>
        .ok (setVal "measure_distance_from_port" (Value.num (min 1 (d / 30))) row)
    | _ => .error PyErr.typeError
  else .ok row

/-- One loop body of `AddNormalizedMeasures` (lines 13-45), in source
order. -/
def normalizeRow (env : NormEnv) (row : Record) : Except PyErr Record := do
  let r1 ← stepHeading row
  let r2 ← stepCourse env r1
  let r3 ← stepSpeed r2
  let r4 ← stepTurn r3
  stepDfp r4

/-- The generator `AddNormalizedMeasures` as a stream transformer: one
output row per input row, each produced by `normalizeRow`; the first raised
exception aborts the stream. -/
def AddNormalizedMeasures (env : NormEnv) (msgs : List Record) :
    Except PyErr (List Record) :=
  msgs.mapM (normalizeRow env)

/-- Either `None` or a number: the well-typedness side condition under which
the normalizer steps before `turn` cannot raise. -/
def numOrNone (v : Value) : Prop := v = Value.none ∨ ∃ q, v = Value.num q

/-!
`AddPairMeasures` (add_measures.py lines 156-200).
-/

/-- Line 162-164: the fixed field set diffed between consecutive records. -/
def diffkeys : List String :=
  ["lon", "lat", "timestamp", "measure_heading", "measure_turn",
   "measure_course", "measure_speed"]

/-- Lines 191-193: the dict comprehension
`{key + "_diff": abs(msg[key] - self.prev[key]) for key in diffkeys
  if key in msg and key in self.prev}` (fully evaluated before the update;
a `TypeError` inside it propagates). -/
def pairDiffs (msg prevR : Record) : Except PyErr (List (String × Value)) :=
  (diffkeys.filter (fun k => hasKey msg k && hasKey prevR k)).mapM
    (fun k => do
      let d ← valSub (pyGet msg k) (pyGet prevR k)
      let a ← valAbs d
      pure (k ++ "_diff", a))

/-- State of `AddPairMeasures`: the current track's first record and the
previous-record slot. -/
structure PState where
  current_track : Option Record
  prev : Option Record
deriving DecidableEq

/-- Line 185: `not self.current_track or msg.get('mmsi') != ... or
msg.get('seg_id') != ...`.  (A Python dict is falsy when empty, so an empty
`current_track` record also triggers the boundary.) -/
def pairBoundary (ct : Option Record) (msg : Record) : Bool :=
  match ct with
  | Option.none => true
  | some c => c.isEmpty || decide (trackId msg ≠ trackId c)

/-- Lines 189-200, after the boundary handling: pick the previous record
(the incoming record itself when the slot was just cleared, line 189-190),
build and apply the diff dict, remember the updated record as the new
previous record (line 194), then convert a present `timestamp_diff` to
seconds (lines 196-198). -/
def pairTail (st1 : PState) (msg : Record) : Except PyErr (PState × Record) := do
  let prevR : Record := st1.prev.getD msg
  let diffs ← pairDiffs msg prevR
  let msg1 := updateRec msg diffs
  let msg2 ←
    match pyGet msg1 "timestamp_diff" with
    | Value.none => pure msg1
    | v => do
        let sec ← totalSeconds v
        pure (setVal "timestamp_diff" sec msg1)
  pure ({ current_track := st1.current_track, prev := some msg1 }, msg2)

/-- One loop body of `AddPairMeasures.process` (lines 184-200): boundary
handling (lines 185-187), then `pairTail`.  Python mutates `msg` in place
and keeps `self.prev` pointing at the mutated object; since the mutation
after line 194 only touches the key `timestamp_diff`, which is never read
back from `prev` (it is not in `diffkeys`), storing the pre-conversion
record in `prev` is behaviourally identical. -/
def pairStep (st : PState) (msg : Record) : Except PyErr (PState × Record) :=
  pairTail
    (if pairBoundary st.current_track msg then
      { current_track := some msg, prev := Option.none }
    else st) msg

/-- `AddPairMeasures.process` over a finite stream, with the per-record
post-states recorded. -/
def pairAux (st : PState) : List Record → Except PyErr (List (PState × Record))
  | [] => .ok []
  | msg :: rest => do
      let (st', out) ← pairStep st msg
      let tl ← pairAux st' rest
      pure ((st', out) :: tl)

def pairInit : PState := { current_track := Option.none, prev := Option.none }

def pairTrace (msgs : List Record) : Except PyErr (List (PState × Record)) :=
  pairAux pairInit msgs

def pairOutputs (msgs : List Record) : Except PyErr (List Record) :=
  (pairTrace msgs).map (List.map Prod.snd)

/-!
`AddWindowMeasures` (add_measures.py lines 48-153).

The `rolling_measures.Stats` accumulator is the external collaborator of
the spec: it is consumed only through `add`/`remove`/`get`, with `remove`
reversing a prior `add`, so its observable state is exactly the multiset of
records added and not yet removed.  `get` is modelled as an arbitrary
function of that multiset and of the aggregate's name, supplied in the
engine configuration; `float(numpy.log10(.))` is likewise an arbitrary
function standing for the external float log10.
-/

/-- Truncation toward zero, Python `int()` on an exact number. -/
def pyInt (q : ℚ) : ℤ := if q < 0 then ⌈q⌉ else ⌊q⌋

def digitChar : ℕ → Char
  | 0 => '0'
  | 1 => '1'
  | 2 => '2'
  | 3 => '3'
  | 4 => '4'
  | 5 => '5'
  | 6 => '6'
  | 7 => '7'
  | 8 => '8'
  | _ => '9'

/-- Decimal digits of a natural number, most significant first (the fuel is
always sufficient since `n / 10 < n` for `n ≥ 10`). -/
def natDigitsAux : ℕ → ℕ → List Char
  | 0, _ => []
  | fuel + 1, n =>
      if n < 10 then [digitChar n]
      else natDigitsAux fuel (n / 10) ++ [digitChar (n % 10)]

def natDecimal (n : ℕ) : List Char := natDigitsAux (n + 1) n

/-- Decimal rendering of an integer, as Python's `"%s" % i` renders it. -/
def intDecimal (i : ℤ) : List Char :=
  if i < 0 then '-' :: natDecimal i.natAbs else natDecimal i.toNat

/-- The window-size suffix `"_%s" % int(window_size.total_seconds())`
appended to every aggregate key (line 98). -/
def winSuffix (w : ℚ) : String := String.mk ('_' :: intDecimal (pyInt w))

/-- Substring test on char lists (Python `pat in s`). -/
def containsL (l pat : List Char) : Bool :=
  (List.range (l.length + 1)).any (fun i => pat.isPrefixOf (l.drop i))

/-- Python `pat in s` for strings. -/
def strContains (s pat : String) : Bool := containsL s.data pat.data

/-- The aggregate names configured in `start_track` (lines 115-127): the
keys of the mapping returned by `self.stats.get()`. -/
def statKeys : List String :=
  ["measure_coursestddev", "measure_speedstddev", "measure_courseavg",
   "measure_speedavg", "measure_latavg", "measure_lonavg", "measure_pos"]

/-- Engine configuration: the window size in seconds
(`window_size.total_seconds()`, exact for a `timedelta`), the collaborator
accumulator's `get`, and the external `float(numpy.log10(.))`. -/
structure EngCfg where
  w : ℚ
  statsGet : Multiset Record → String → ℚ
  log10F : ℚ → ℚ

/-- Rational-valued aggregate dict assignment `s[k] = v` (same in-place
semantics as `setVal`). -/
def qset (k : String) (v : ℚ) : List (String × ℚ) → List (String × ℚ)
  | [] => [(k, v)]
  | (k', v') :: rest =>
      if k' = k then (k, v) :: rest else (k', v') :: qset k v rest

/-- Rational-valued aggregate dict lookup `s[k]` (the default is never
reached on the keys the code indexes, which are always present). -/
def qget (s : List (String × ℚ)) (k : String) : ℚ :=
  match s with
  | [] => 0
  | (k', v) :: rest => if k' = k then v else qget rest k

/-- `add_measures_to_row` (lines 90-110) minus the final `self.end.update`:
the measures dict it builds.  In order: `s = self.stats.get()`; the three
`measure_pos` reassignments; the key-suffixing comprehension; the `_log`
pass over a snapshot of the items, appending one new key per
`stddev`-containing key. -/
def windowMeasures (cfg : EngCfg) (stats : Multiset Record) :
    List (String × ℚ) :=
  let s := statKeys.map (fun k => (k, cfg.statsGet stats k))
  let s := qset "measure_pos" ((qget s "measure_pos" * 60) / (cfg.w / 60 / 60)) s
  let s := qset "measure_pos" (qget s "measure_pos" / 17) s
  let s := qset "measure_pos" (min 1 (qget s "measure_pos")) s
  let s := s.map (fun kv => (kv.1 ++ winSuffix cfg.w, kv.2))
  s ++ (s.filter (fun kv => strContains kv.1 "stddev")).map
        (fun kv => (kv.1 ++ "_log", cfg.log10F (kv.2 + 1 / 1000)))

/-- Lines 90-110 applied to the end record: `self.end.update(s)` followed by
`out = self.end.copy()` (all measure values are Python floats, stored as
numbers). -/
def addMeasuresToRow (cfg : EngCfg) (stats : Multiset Record)
    (endRec : Record) : Record :=
  updateRec endRec ((windowMeasures cfg stats).map
    (fun kv => (kv.1, Value.num kv.2)))

/-- Mutable state of one `AddWindowMeasures` instance: the last index/record
yielded by the `startIn` cursor (`startidx` is `-1` before the first pull),
the current track's first record, the vestigial `prev` slot (written only by
`start_track`), and the accumulator's record multiset. -/
structure WState where
  startidx : ℤ
  start : Option Record
  current_track : Option Record
  prev : Option Record
  stats : Multiset Record
deriving DecidableEq

def initWState : WState :=
  { startidx := -1, start := Option.none, current_track := Option.none,
    prev := Option.none, stats := 0 }

/-- `self.startIn.next()`: the `startIn` cursor and the `endIn` cursor are
`itertools.tee` views of the same enumerated stream, so the next pull
returns `(startidx + 1, msgs[startidx + 1])`, or raises `StopIteration`
past the end. -/
def nextStart (msgs : List Record) (startidx : ℤ) :
    Except PyErr (ℤ × Record) :=
  match msgs.get? (startidx + 1).toNat with
  | some r => .ok (startidx + 1, r)
  | Option.none => .error PyErr.stopIteration

/-- Line 132-134 boundary test against the current track's record (whose
later in-place enrichment never touches `mmsi`/`seg_id`, so comparing the
pristine record is equivalent). -/
def wBoundary (ct : Option Record) (endRec : Record) : Bool :=
  match ct with
  | Option.none => true
  | some c => c.isEmpty || decide (trackId endRec ≠ trackId c)

/-- Lines 135-136: `while self.startidx < self.endidx: ... startIn.next()`. -/
def catchup (msgs : List Record) (endidx : ℕ) :
    ℕ → WState → Except PyErr WState
  | 0, _ => .error PyErr.fuelOut
  | fuel + 1, st =>
      if st.startidx < (endidx : ℤ) then
        match nextStart msgs st.startidx with
        | .error e => .error e
        | .ok (i, r) =>
            catchup msgs endidx fuel { st with startidx := i, start := some r }
      else .ok st

/-- `start_track` (lines 112-127): remember the new track's record, clear
`prev`, and replace the accumulator by a fresh empty one. -/
def startTrack (st : WState) (endRec : Record) : WState :=
  { st with current_track := some endRec, prev := Option.none, stats := 0 }

/-- The eviction-loop guard (lines 142-144): `not self.start`, or
`'timestamp' not in self.start`, or
`self.end['timestamp'] - self.start['timestamp'] > self.window_size`
(short-circuit, left to right).  `te` is `self.end['timestamp']`;
the comparison succeeds on the timedelta produced by a datetime
subtraction. -/
def evictCond (w : ℚ) (te : Value) (start? : Option Record) :
    Except PyErr Bool :=
  match start? with
  | Option.none => .ok true
  | some r =>
      if r.isEmpty then .ok true
      else
        match pyLookup r "timestamp" with
        | Option.none => .ok true
        | some tv => do
            let d ← valSub te tv
            match d with
            | Value.dur q => .ok (decide (w < q))
            | _ => .error PyErr.typeError

/-- Lines 141-147: the eviction loop.  Each iteration removes the current
start record from the accumulator (unless the record is falsy, i.e. empty)
and pulls the next start record. -/
def evictLoop (msgs : List Record) (w : ℚ) (te : Value) :
    ℕ → WState → Except PyErr WState
  | 0, _ => .error PyErr.fuelOut
  | fuel + 1, st =>
      match evictCond w te st.start with
      | .error e => .error e
      | .ok c =>
          if c then
            let stats :=
              match st.start with
              | some r => if r.isEmpty then st.stats else st.stats.erase r
              | Option.none => st.stats
            match nextStart msgs st.startidx with
            | .error e => .error e
            | .ok (i, r) =>
                evictLoop msgs w te fuel
                  { st with startidx := i, start := some r, stats := stats }
          else .ok st

/-- The track-boundary branch of `process` (lines 132-137): drain the start
cursor up to the end cursor, then `start_track`. -/
def boundaryReset (msgs : List Record) (fuel endidx : ℕ) (endRec : Record)
    (st : WState) : Except PyErr WState := do
  let st ← catchup msgs endidx fuel st
  pure (startTrack st endRec)

/-- One iteration of `AddWindowMeasures.process` (lines 130-153) for the end
record `endRec` at stream index `endidx`. -/
def processStep (cfg : EngCfg) (msgs : List Record) (fuel endidx : ℕ)
    (endRec : Record) (st : WState) : Except PyErr (WState × Record) := do
  let st ←
    if wBoundary st.current_track endRec then
      boundaryReset msgs fuel endidx endRec st
    else pure st
  let st := { st with stats := endRec ::ₘ st.stats }
  let st ←
    if hasKey endRec "timestamp" then
      evictLoop msgs cfg.w (pyGet endRec "timestamp") fuel st
    else pure st
  pure (st, addMeasuresToRow cfg st.stats endRec)

/-- `process` over the enumerated suffix of the stream, recording each
iteration's post-state next to its yielded record. -/
def processAux (cfg : EngCfg) (msgs : List Record) :
    List (ℕ × Record) → WState → Except PyErr (List (WState × Record))
  | [], _ => .ok []
  | (i, r) :: rest, st =>
      match processStep cfg msgs (msgs.length + 2) i r st with
      | .error e => .error e
      | .ok (st', out) =>
          match processAux cfg msgs rest st' with
          | .error e => .error e
          | .ok tl => .ok ((st', out) :: tl)

def processTrace (cfg : EngCfg) (msgs : List Record) :
    Except PyErr (List (WState × Record)) :=
  processAux cfg msgs msgs.enum initWState

/-- The records yielded by one `AddWindowMeasures` instance. -/
def processOutputs (cfg : EngCfg) (msgs : List Record) :
    Except PyErr (List Record) :=
  (processTrace cfg msgs).map (List.map Prod.snd)

/-- Index of the first record of the track containing index `i`: walk back
while the `(mmsi, seg_id)` pair matches the previous record. -/
def trackStartIdx (msgs : List Record) : ℕ → ℕ
  | 0 => 0
  | i + 1 =>
      if trackId (msgs.getD (i + 1) []) = trackId (msgs.getD i []) then
        trackStartIdx msgs i
      else i + 1

/-- The record's timestamp, when it is a datetime. -/
def recTs (r : Record) : Option ℚ :=
  match pyLookup r "timestamp" with
  | some (Value.dt q) => some q
  | _ => Option.none

/-- The multiset slice `msgs[a..b]` (inclusive). -/
def sliceMS (msgs : List Record) (a b : ℕ) : Multiset Record :=
  ((msgs.drop a).take (b + 1 - a) : List Record)

/-- The window the spec claims (strict lower bound): records `R` of `E`'s
track, up to and including `E` at index `i`, with
`E.timestamp - w < R.timestamp ≤ E.timestamp`. -/
def windowSpecStrict (msgs : List Record) (w : ℚ) (i : ℕ) : Multiset Record :=
  match recTs (msgs.getD i []) with
  | some te =>
      (((msgs.take (i + 1)).drop (trackStartIdx msgs i)).filter
        (fun r =>
          match recTs r with
          | some q => decide (te - w < q ∧ q ≤ te)
          | Option.none => false) : List Record)
  | Option.none => 0

/-- The window the code maintains (closed lower bound): records `R` of `E`'s
track, up to and including `E` at index `i`, with
`E.timestamp - w ≤ R.timestamp ≤ E.timestamp`. -/
def windowSpecClosed (msgs : List Record) (w : ℚ) (i : ℕ) : Multiset Record :=
  match recTs (msgs.getD i []) with
  | some te =>
      (((msgs.take (i + 1)).drop (trackStartIdx msgs i)).filter
        (fun r =>
          match recTs r with
          | some q => decide (te - w ≤ q ∧ q ≤ te)
          | Option.none => false) : List Record)
  | Option.none => 0

/-- Lines 101-104 with exact real semantics for `numpy.log10`: for every
key of the suffixed aggregate dict containing `"stddev"`, append the key
with `"_log"` appended mapping to `log10(value + 1e-3)`. -/
noncomputable def addLogMeasuresR (s : List (String × ℝ)) :
    List (String × ℝ) :=
  s ++ (s.filter (fun kv => strContains kv.1 "stddev")).map
        (fun kv => (kv.1 ++ "_log", Real.logb 10 (kv.2 + 1 / 1000)))

/-- Real-valued aggregate dict lookup (first match), for stating facts
about `addLogMeasuresR`. -/
def rlookup : List (String × ℝ) → String → Option ℝ
  | [], _ => Option.none
  | (k', v) :: rest, k => if k' = k then some v else rlookup rest k

/-- The state invariant of `AddWindowMeasures.process` on a stream whose
records all carry datetime timestamps `tsf`, after the first `n` records
have been processed: `prev` stays cleared, `current_track` is the current
track's first record, and the cursor/accumulator describe the contiguous
slice of in-window records ending at the last processed record. -/
def WInv (cfg : EngCfg) (msgs : List Record) (tsf : ℕ → ℚ) :
    ℕ → WState → Prop
  | 0, st => st = initWState
  | n + 1, st =>
      st.prev = Option.none ∧
      st.current_track = some (msgs.getD (trackStartIdx msgs n) []) ∧
      ∃ s : ℕ, trackStartIdx msgs n ≤ s ∧ s ≤ n ∧
        st.startidx = (s : ℤ) ∧ st.start = some (msgs.getD s []) ∧
        (∀ j, trackStartIdx msgs n ≤ j → j < s → cfg.w < tsf n - tsf j) ∧
        tsf n - tsf s ≤ cfg.w ∧ st.stats = sliceMS msgs s n

/-- The engine state before processing the `j`-th record, read off a trace
of per-iteration post-states: the initial state for `j = 0`, else the
post-state of iteration `j - 1`. -/
def traceStateAt (st : WState) (tr : List (WState × Record)) : ℕ → WState
  | 0 => st
  | j + 1 => (tr.getD j (initWState, [])).1

/-- Key present implies numeric, absent allowed (decidable typing guard for
the diffed fields, which Python subtracts as floats). -/
def numOrAbsentB (r : Record) (k : String) : Bool :=
  match pyLookup r k with
  | Option.none => true
  | some (Value.num _) => true
  | some _ => false

/-- Key present implies datetime, absent allowed. -/
def dtOrAbsentB (r : Record) (k : String) : Bool :=
  match pyLookup r k with
  | Option.none => true
  | some (Value.dt _) => true
  | some _ => false

/-- Well-typedness of a record entering `AddPairMeasures`: diffed fields are
numbers when present, `timestamp` is a datetime when present, and no
`timestamp_diff` key is already present. -/
def pairTypedB (r : Record) : Bool :=
  (diffkeys.all (fun k => k = "timestamp" || numOrAbsentB r k)) &&
  dtOrAbsentB r "timestamp" && (pyLookup r "timestamp_diff").isNone

/-- The value `abs(msg[k] - prevR[k])` of one diff entry under the typing
guard (the catch-all branch is unreachable there). -/
def dval (msg prevR : Record) (k : String) : Value :=
  match pyGet msg k, pyGet prevR k with
  | Value.num a, Value.num b => Value.num |a - b|
  | Value.dt a, Value.dt b => Value.dur |a - b|
  | _, _ => Value.none

/-- What the pair stage emits on a track's first record: a zero diff for
every present diffed field (each field is diffed against itself), with the
`timestamp` diff already converted to zero seconds. -/
def zeroConcl (msg out : Record) : Prop :=
  (∀ k, k ∈ diffkeys → k ≠ "timestamp" → hasKey msg k = true →
    pyLookup out (k ++ "_diff") = some (Value.num 0)) ∧
  (hasKey msg "timestamp" = true →
    pyLookup out "timestamp_diff" = some (Value.num 0))

/-- What the pair stage emits on a subsequent record of the same track:
absolute differences against the immediately prior record, `timestamp`
converted to seconds. -/
def diffConcl (pm msg out : Record) : Prop :=
  (∀ k, ∀ a b : ℚ, k ∈ diffkeys → k ≠ "timestamp" →
    pyLookup msg k = some (Value.num a) → pyLookup pm k = some (Value.num b) →
    pyLookup out (k ++ "_diff") = some (Value.num |a - b|)) ∧
  (∀ a b : ℚ, pyLookup msg "timestamp" = some (Value.dt a) →
    pyLookup pm "timestamp" = some (Value.dt b) →
    pyLookup out "timestamp_diff" = some (Value.num |a - b|))

/-- `timestamp_diff`, whenever present on an emitted record, is a plain
number of seconds, never a timedelta. -/
def tdNum (out : Record) : Prop :=
  ∀ v, pyLookup out "timestamp_diff" = some v → ∃ q : ℚ, v = Value.num q

/-- Per-record pair-stage contract, relative to the previous record of the
stream (`Option.none` at stream start). -/
def pairRel : Option Record → Record → Record → Prop
  | Option.none, msg, out => zeroConcl msg out ∧ tdNum out
  | some pm, msg, out =>
      (trackId msg ≠ trackId pm → zeroConcl msg out) ∧
      (trackId msg = trackId pm → diffConcl pm msg out) ∧ tdNum out

/-- The pair-stage contract along a stream. -/
def pairConcls : Option Record → List Record → List Record → Prop
  | _, [], _ => True
  | pm?, msg :: rest, outs =>
      pairRel pm? msg (outs.getD 0 []) ∧ pairConcls (some msg) rest (outs.drop 1)

/-- Option-valued rational aggregate-dict lookup (first match), for stating
presence and values of keys of the measures dict. -/
def qlookup : List (String × ℚ) → String → Option ℚ
  | [], _ => Option.none
  | (k', v) :: rest, k => if k' = k then some v else qlookup rest k

/-- The aggregate dict after the three `measure_pos` reassignments of
`add_measures_to_row` (lines 93-96), before the key-suffixing
comprehension: `windowMeasures` is definitionally the suffixing and
`_log`-pass applied to this dict. -/
def posDict (cfg : EngCfg) (stats : Multiset Record) : List (String × ℚ) :=
  let s := statKeys.map (fun k => (k, cfg.statsGet stats k))
  let s := qset "measure_pos" ((qget s "measure_pos" * 60) / (cfg.w / 60 / 60)) s
  let s := qset "measure_pos" (qget s "measure_pos" / 17) s
  qset "measure_pos" (min 1 (qget s "measure_pos")) s

/-- Concrete window-engine configuration for the closed test scenarios:
window size 3600 seconds, an accumulator whose `get` returns 0 for every
aggregate, a log10 placeholder. -/
def wcfgW : EngCfg :=
  { w := 3600, statsGet := fun _ _ => 0, log10F := fun _ => 0 }

/-- Three records of one track at timestamps 0, 1800 and 3700 seconds: with
a 3600-second window, the third record's window drops the first record. -/
def msgsW : List Record :=
  [[("timestamp", Value.dt 0)], [("timestamp", Value.dt 1800)],
   [("timestamp", Value.dt 3700)]]

/-- The timestamps of `msgsW`. -/
def tsfW : ℕ → ℚ := fun n => if n = 0 then 0 else if n = 1 then 1800 else 3700

/-- Two records of one track whose timestamps are exactly one window apart:
the boundary case separating the strict from the closed window bound. -/
def msgsTie : List Record :=
  [[("timestamp", Value.dt 0)], [("timestamp", Value.dt 3600)]]

/-- The timestamps of `msgsTie`. -/
def tsfTie : ℕ → ℚ := fun n => if n = 0 then 0 else 3600

/-!  Record-operation lemmas. -/

theorem pyLookup_setVal (k k' : String) (v : Value) (r : Record) :
    pyLookup (setVal k' v r) k = if k' = k then some v else pyLookup r k := by
  induction r with
  | nil => simp [setVal, pyLookup]
  | cons hd tl ih =>
      obtain ⟨a, b⟩ := hd
      by_cases hak : a = k' <;> by_cases hkk : k' = k <;>
        simp [setVal, pyLookup, hak, hkk, ih] <;> subst_vars <;>
        simp_all [pyLookup]

theorem pyLookup_setVal_same (k : String) (v : Value) (r : Record) :
    pyLookup (setVal k v r) k = some v := by
  simp [pyLookup_setVal]

theorem pyLookup_setVal_other (k k' : String) (v : Value) (r : Record)
    (h : k' ≠ k) : pyLookup (setVal k' v r) k = pyLookup r k := by
  simp [pyLookup_setVal, h]

theorem setVal_eq_self (k : String) (v : Value) (r : Record)
    (h : pyLookup r k = some v) : setVal k v r = r := by
  induction r with
  | nil => simp [pyLookup] at h
  | cons hd tl ih =>
      obtain ⟨a, b⟩ := hd
      by_cases hak : a = k
      · subst hak
        simp [pyLookup] at h
        simp [setVal, h]
      · simp [pyLookup, hak] at h
        simp [setVal, hak, ih h]

def optOr (a b : Option Value) : Option Value :=
  match a with
  | some v => some v
  | Option.none => b

theorem optOr_assoc (a b c : Option Value) :
    optOr (optOr a b) c = optOr a (optOr b c) := by
  cases a <;> simp [optOr]

theorem pyLookup_append (l1 l2 : Record) (k : String) :
    pyLookup (l1 ++ l2) k = optOr (pyLookup l1 k) (pyLookup l2 k) := by
  induction l1 with
  | nil => simp [pyLookup, optOr]
  | cons hd tl ih =>
      obtain ⟨a, b⟩ := hd
      by_cases hak : a = k <;> simp [pyLookup, hak, ih, optOr]

theorem pyLookup_updateRec (r : Record) (kvs : List (String × Value))
    (k : String) :
    pyLookup (updateRec r kvs) k = optOr (pyLookup kvs.reverse k) (pyLookup r k) := by
  induction kvs generalizing r with
  | nil => simp [updateRec, pyLookup, optOr]
  | cons hd tl ih =>
      obtain ⟨a, b⟩ := hd
      have hstep : updateRec r ((a, b) :: tl) = updateRec (setVal a b r) tl := rfl
      rw [hstep, ih]
      have hrev : ((a, b) :: tl).reverse = tl.reverse ++ [(a, b)] := by simp
      rw [hrev, pyLookup_append, optOr_assoc]
      congr 1
      by_cases hak : a = k <;> simp [pyLookup, hak, optOr, pyLookup_setVal]

theorem pyLookup_eq_none_of_forall (l : Record) (k : String)
    (h : ∀ kv ∈ l, kv.1 ≠ k) : pyLookup l k = none := by
  induction l with
  | nil => rfl
  | cons hd tl ih =>
      obtain ⟨a, b⟩ := hd
      have ha : a ≠ k := h (a, b) (by simp)
      simp only [pyLookup, if_neg ha]
      exact ih (fun kv hkv => h kv (by simp [hkv]))

theorem pyLookup_updateRec_notMem (r : Record) (kvs : List (String × Value))
    (k : String) (h : ∀ kv ∈ kvs, kv.1 ≠ k) :
    pyLookup (updateRec r kvs) k = pyLookup r k := by
  rw [pyLookup_updateRec]
  have hnone : pyLookup kvs.reverse k = none :=
    pyLookup_eq_none_of_forall _ _ (fun kv hkv => h kv (by simpa using hkv))
  rw [hnone]
  rfl

/-!  Normalizer step lemmas. -/

theorem stepHeading_lookup {row r' : Record} (h : stepHeading row = .ok r')
    {k : String} (hk : k ≠ "measure_heading") :
    pyLookup r' k = pyLookup row k := by
  unfold stepHeading at h
  cases hv : pyGet row "heading" <;> rw [hv] at h <;>
    simp only [Except.ok.injEq, reduceCtorEq] at h <;> subst h <;>
    simp [pyLookup_setVal_other _ _ _ _ (Ne.symm hk)]

theorem stepCourse_lookup {env : NormEnv} {row r' : Record}
    (h : stepCourse env row = .ok r') {k : String}
    (h1 : k ≠ "measure_course") (h2 : k ≠ "measure_cos_course")
    (h3 : k ≠ "measure_sin_course") :
    pyLookup r' k = pyLookup row k := by
  unfold stepCourse at h
  cases hv : pyGet row "course" <;> rw [hv] at h <;>
    simp only [Except.ok.injEq, reduceCtorEq] at h <;> subst h <;>
    simp [pyLookup_setVal_other _ _ _ _ (Ne.symm h1),
      pyLookup_setVal_other _ _ _ _ (Ne.symm h2),
      pyLookup_setVal_other _ _ _ _ (Ne.symm h3)]

theorem stepSpeed_lookup {row r' : Record} (h : stepSpeed row = .ok r')
    {k : String} (hk : k ≠ "measure_speed") :
    pyLookup r' k = pyLookup row k := by
  unfold stepSpeed at h
  cases hv : pyGet row "speed" <;> rw [hv] at h <;>
    simp only [Except.ok.injEq, reduceCtorEq] at h <;> subst h <;>
    simp [pyLookup_setVal_other _ _ _ _ (Ne.symm hk)]

theorem stepTurn_lookup {row r' : Record} (h : stepTurn row = .ok r')
    {k : String} (hk : k ≠ "measure_turn") :
    pyLookup r' k = pyLookup row k := by
  unfold stepTurn at h
  cases hv : pyGet row "turn" <;> rw [hv] at h <;>
    simp only [Except.ok.injEq, reduceCtorEq] at h <;> subst h <;>
    simp [pyLookup_setVal_other _ _ _ _ (Ne.symm hk)]

theorem stepDfp_lookup {row r' : Record} (h : stepDfp row = .ok r')
    {k : String} (hk : k ≠ "measure_distance_from_port") :
    pyLookup r' k = pyLookup row k := by
  unfold stepDfp at h
  by_cases hp : hasKey row "distance_from_port"
  · rw [if_pos hp] at h
    cases hv : pyGet row "distance_from_port" <;> rw [hv] at h <;>
      simp only [Except.ok.injEq, reduceCtorEq] at h <;> subst h <;>
      simp [pyLookup_setVal_other _ _ _ _ (Ne.symm hk)]
  · rw [if_neg hp] at h
    simp only [Except.ok.injEq] at h
    subst h
    rfl

theorem normalizeRow_elim {env : NormEnv} {row out : Record}
    (h : normalizeRow env row = .ok out) :
    ∃ r1 r2 r3 r4, stepHeading row = .ok r1 ∧ stepCourse env r1 = .ok r2 ∧
      stepSpeed r2 = .ok r3 ∧ stepTurn r3 = .ok r4 ∧ stepDfp r4 = .ok out := by
  unfold normalizeRow at h
  simp only [Bind.bind] at h
  cases e1 : stepHeading row with
  | error e => rw [e1] at h; simp only [Except.bind, reduceCtorEq] at h
  | ok r1 =>
      rw [e1] at h
      simp only [Except.bind] at h
      cases e2 : stepCourse env r1 with
      | error e => rw [e2] at h; simp only [Except.bind, reduceCtorEq] at h
      | ok r2 =>
          rw [e2] at h
          simp only [Except.bind] at h
          cases e3 : stepSpeed r2 with
          | error e => rw [e3] at h; simp only [Except.bind, reduceCtorEq] at h
          | ok r3 =>
              rw [e3] at h
              simp only [Except.bind] at h
              cases e4 : stepTurn r3 with
              | error e => rw [e4] at h; simp only [Except.bind, reduceCtorEq] at h
              | ok r4 =>
                  rw [e4] at h
                  simp only [Except.bind] at h
                  exact ⟨r1, r2, r3, r4, rfl, e2, e3, e4, h⟩

/-- Raw source keys are untouched by the whole normalizer pass. -/
theorem normalizeRow_raw_lookup {env : NormEnv} {row out : Record}
    (h : normalizeRow env row = .ok out) {k : String}
    (h1 : k ≠ "measure_heading") (h2 : k ≠ "measure_course")
    (h3 : k ≠ "measure_cos_course") (h4 : k ≠ "measure_sin_course")
    (h5 : k ≠ "measure_speed") (h6 : k ≠ "measure_turn")
    (h7 : k ≠ "measure_distance_from_port") :
    pyLookup out k = pyLookup row k := by
  obtain ⟨r1, r2, r3, r4, e1, e2, e3, e4, e5⟩ := normalizeRow_elim h
  rw [stepDfp_lookup e5 h7, stepTurn_lookup e4 h6, stepSpeed_lookup e3 h5,
    stepCourse_lookup e2 h2 h3 h4, stepHeading_lookup e1 h1]

theorem pyGet_eq_some {r : Record} {k : String} {v : Value}
    (h : pyGet r k = v) (hv : v ≠ Value.none) : pyLookup r k = some v := by
  unfold pyGet at h
  cases hl : pyLookup r k with
  | none => rw [hl] at h; exact absurd h.symm hv
  | some w => rw [hl] at h; simp at h; rw [h]

theorem stepHeading_writes {row r' : Record} (h : stepHeading row = .ok r')
    {q : ℚ} (hq : pyGet row "heading" = Value.num q) :
    pyLookup r' "measure_heading" = some (Value.num (q / 360)) := by
  unfold stepHeading at h
  rw [hq] at h
  simp only [Except.ok.injEq] at h
  subst h
  exact pyLookup_setVal_same _ _ _

theorem stepCourse_writes {env : NormEnv} {row r' : Record}
    (h : stepCourse env row = .ok r') {q : ℚ}
    (hq : pyGet row "course" = Value.num q) :
    pyLookup r' "measure_course" = some (Value.num (q / 360)) ∧
    pyLookup r' "measure_cos_course" = some (Value.num (env.cosCourse q)) ∧
    pyLookup r' "measure_sin_course" = some (Value.num (env.sinCourse q)) := by
  unfold stepCourse at h
  rw [hq] at h
  simp only [Except.ok.injEq] at h
  subst h
  refine ⟨?_, ?_, ?_⟩
  · rw [pyLookup_setVal_other _ _ _ _ (by decide),
      pyLookup_setVal_other _ _ _ _ (by decide)]
    exact pyLookup_setVal_same _ _ _
  · rw [pyLookup_setVal_other _ _ _ _ (by decide)]
    exact pyLookup_setVal_same _ _ _
  · exact pyLookup_setVal_same _ _ _

theorem stepSpeed_writes {row r' : Record} (h : stepSpeed row = .ok r')
    {s : ℚ} (hs : pyGet row "speed" = Value.num s) :
    pyLookup r' "measure_speed" = some (Value.num (1 - min 1 (s / 17))) := by
  unfold stepSpeed at h
  rw [hs] at h
  simp only [Except.ok.injEq] at h
  subst h
  exact pyLookup_setVal_same _ _ _

theorem stepTurn_writes {row r' : Record} (h : stepTurn row = .ok r')
    {t : ℚ} (ht : pyGet row "turn" = Value.num t) :
    pyLookup r' "measure_turn" = some (Value.num (min 1 (|t| / 126))) := by
  unfold stepTurn at h
  rw [ht] at h
  simp only [Except.ok.injEq] at h
  subst h
  exact pyLookup_setVal_same _ _ _

theorem stepTurn_err {row : Record} {v : Value} (hv : pyGet row "turn" = v)
    (h1 : v ≠ Value.none) (h2 : ∀ q : ℚ, v ≠ Value.num q) :
    stepTurn row = .error PyErr.assertionError := by
  unfold stepTurn
  rw [hv]
  cases v with
  | none => exact absurd rfl h1
  | num q => exact absurd rfl (h2 q)
  | dt q => rfl
  | dur q => rfl
  | str s => rfl

theorem stepHeading_ok (row : Record) (h : numOrNone (pyGet row "heading")) :
    ∃ r', stepHeading row = .ok r' := by
  rcases h with h | ⟨q, h⟩ <;> exact ⟨_, by unfold stepHeading; rw [h]⟩

theorem stepCourse_ok (env : NormEnv) (row : Record)
    (h : numOrNone (pyGet row "course")) :
    ∃ r', stepCourse env row = .ok r' := by
  rcases h with h | ⟨q, h⟩ <;> exact ⟨_, by unfold stepCourse; rw [h]⟩

theorem stepSpeed_ok (row : Record) (h : numOrNone (pyGet row "speed")) :
    ∃ r', stepSpeed row = .ok r' := by
  rcases h with h | ⟨q, h⟩ <;> exact ⟨_, by unfold stepSpeed; rw [h]⟩

/-- The claim's range and endpoint facts about `1 - min(1, s/17)`, in the
amended form: the range and the `= 1` characterization need `0 ≤ s`. -/
theorem speed_measure_arith (s : ℚ) :
    (0 ≤ s → (0 ≤ 1 - min 1 (s / 17) ∧ 1 - min 1 (s / 17) ≤ 1) ∧
      (1 - min 1 (s / 17) = 1 ↔ s ≤ 0)) ∧
    (1 - min 1 (s / 17) = 0 ↔ 17 ≤ s) := by
  constructor
  · intro hs0
    have hA0 : 0 ≤ min 1 (s / 17) :=
      le_min (by norm_num) (div_nonneg hs0 (by norm_num))
    have hA1 : min 1 (s / 17) ≤ 1 := min_le_left _ _
    refine ⟨⟨by linarith, by linarith⟩, ?_⟩
    constructor
    · intro h
      have hA : min 1 (s / 17) = 0 := by linarith
      rcases le_total (s / 17) 1 with hle | hle
      · rw [min_eq_right hle] at hA
        have : s = 0 := by
          have := div_eq_zero_iff.mp hA
          rcases this with h' | h'
          · exact h'
          · norm_num at h'
        linarith
      · rw [min_eq_left hle] at hA
        norm_num at hA
    · intro h
      have hs : s = 0 := le_antisymm h hs0
      subst hs
      norm_num
  · constructor
    · intro h
      have hA : min 1 (s / 17) = 1 := by linarith
      have h1 : (1:ℚ) ≤ s / 17 := min_eq_left_iff.mp hA
      have := (one_le_div (by norm_num : (0:ℚ) < 17)).mp h1
      linarith
    · intro h
      have h1 : (1:ℚ) ≤ s / 17 := (one_le_div (by norm_num : (0:ℚ) < 17)).mpr h
      rw [min_eq_left h1]
      ring

/-- C4 (amended): for every record with `speed` present as a number `s`, the
normalizer writes `measure_speed = 1 - min(1, s/17)`; when `0 ≤ s` this
value lies in `[0, 1]` and equals `1` iff `s ≤ 0`; it equals `0` iff
`17 ≤ s` (for every `s`).  The original claim's range and `= 1`
characterization are false for negative speeds (see the counterexample). -/
theorem c4_measure_speed (env : NormEnv) (row out : Record) (s : ℚ)
    (hok : normalizeRow env row = .ok out)
    (hs : pyGet row "speed" = Value.num s) :
    pyLookup out "measure_speed" = some (Value.num (1 - min 1 (s / 17))) ∧
    (0 ≤ s → (0 ≤ 1 - min 1 (s / 17) ∧ 1 - min 1 (s / 17) ≤ 1) ∧
      (1 - min 1 (s / 17) = 1 ↔ s ≤ 0)) ∧
    (1 - min 1 (s / 17) = 0 ↔ 17 ≤ s) := by
  obtain ⟨r1, r2, r3, r4, e1, e2, e3, e4, e5⟩ := normalizeRow_elim hok
  have hl : pyLookup row "speed" = some (Value.num s) :=
    pyGet_eq_some hs (by simp)
  have hs2 : pyGet r2 "speed" = Value.num s := by
    unfold pyGet
    rw [stepCourse_lookup e2 (by decide) (by decide) (by decide),
      stepHeading_lookup e1 (by decide), hl]
    rfl
  have hw : pyLookup r3 "measure_speed"
      = some (Value.num (1 - min 1 (s / 17))) := stepSpeed_writes e3 hs2
  refine ⟨?_, speed_measure_arith s⟩
  rw [stepDfp_lookup e5 (by decide), stepTurn_lookup e4 (by decide)]
  exact hw

/-- C4 counterexample: with `speed = -17` the code yields
`measure_speed = 2`, outside `[0, 1]` and `≠ 1` although `speed ≤ 0`, so
the claim's "lies in [0,1]" and "equals 1.0 iff speed <= 0" are false as
stated. -/
theorem c4_measure_speed_cex :
    normalizeRow ⟨fun _ => 0, fun _ => 0⟩ [("speed", Value.num (-17))]
      = .ok [("speed", Value.num (-17)), ("measure_speed", Value.num 2)] ∧
    ¬ ((0 : ℚ) ≤ 2 ∧ (2 : ℚ) ≤ 1) ∧ ¬ ((2 : ℚ) = 1) ∧ ((-17 : ℚ) ≤ 0) := by
  have h2 : (1 : ℚ) - min 1 ((-17 : ℚ) / 17) = 2 := by
    rw [min_def]
    norm_num
  refine ⟨?_, by norm_num⟩
  have e : normalizeRow ⟨fun _ => 0, fun _ => 0⟩ [("speed", Value.num (-17))]
      = .ok [("speed", Value.num (-17)),
             ("measure_speed", Value.num (1 - min 1 ((-17 : ℚ) / 17)))] := rfl
  rw [e, h2]

/-- C4 witness: the amended theorem applied at `speed = 5`. -/
theorem c4_measure_speed_witness :
    pyLookup [("speed", Value.num 5),
        ("measure_speed", Value.num (1 - min 1 ((5:ℚ) / 17)))]
        "measure_speed" = some (Value.num (1 - min 1 ((5:ℚ) / 17))) ∧
    ((0:ℚ) ≤ 5 → (0 ≤ 1 - min 1 ((5:ℚ) / 17) ∧ 1 - min 1 ((5:ℚ) / 17) ≤ 1) ∧
      (1 - min 1 ((5:ℚ) / 17) = 1 ↔ (5:ℚ) ≤ 0)) ∧
    (1 - min 1 ((5:ℚ) / 17) = 0 ↔ (17:ℚ) ≤ 5) :=
  c4_measure_speed ⟨fun _ => 0, fun _ => 0⟩ [("speed", Value.num 5)]
    [("speed", Value.num 5),
      ("measure_speed", Value.num (1 - min 1 ((5:ℚ) / 17)))] 5
    (by rfl) (by rfl)

/-- C7: `distance_from_port` present with value `None` yields
`measure_distance_from_port = 1.0`; present with a number `d` yields
`min(1, d/30)`; absent key yields no `measure_distance_from_port` at all
(the lookup is unchanged from the input row). -/
theorem c7_distance_from_port (env : NormEnv) (row out : Record)
    (hok : normalizeRow env row = .ok out) :
    (pyLookup row "distance_from_port" = some Value.none →
      pyLookup out "measure_distance_from_port" = some (Value.num 1)) ∧
    (∀ d : ℚ, pyLookup row "distance_from_port" = some (Value.num d) →
      pyLookup out "measure_distance_from_port"
        = some (Value.num (min 1 (d / 30)))) ∧
    (pyLookup row "distance_from_port" = Option.none →
      pyLookup out "measure_distance_from_port"
        = pyLookup row "measure_distance_from_port") := by
  obtain ⟨r1, r2, r3, r4, e1, e2, e3, e4, e5⟩ := normalizeRow_elim hok
  have hdfp : pyLookup r4 "distance_from_port"
      = pyLookup row "distance_from_port" := by
    rw [stepTurn_lookup e4 (by decide), stepSpeed_lookup e3 (by decide),
      stepCourse_lookup e2 (by decide) (by decide) (by decide),
      stepHeading_lookup e1 (by decide)]
  refine ⟨?_, ?_, ?_⟩
  · intro h
    have h4 : pyLookup r4 "distance_from_port" = some Value.none :=
      hdfp.trans h
    unfold stepDfp at e5
    rw [hasKey, h4] at e5
    simp only [Option.isSome_some, if_true] at e5
    rw [pyGet, h4] at e5
    simp only [Option.getD_some, Except.ok.injEq] at e5
    subst e5
    exact pyLookup_setVal_same _ _ _
  · intro d h
    have h4 : pyLookup r4 "distance_from_port" = some (Value.num d) :=
      hdfp.trans h
    unfold stepDfp at e5
    rw [hasKey, h4] at e5
    simp only [Option.isSome_some, if_true] at e5
    rw [pyGet, h4] at e5
    simp only [Option.getD_some, Except.ok.injEq] at e5
    subst e5
    exact pyLookup_setVal_same _ _ _
  · intro h
    have h4 : pyLookup r4 "distance_from_port" = Option.none := hdfp.trans h
    unfold stepDfp at e5
    rw [hasKey, h4] at e5
    simp only [Option.isSome_none, Bool.false_eq_true, if_false,
      Except.ok.injEq] at e5
    subst e5
    rw [stepTurn_lookup e4 (by decide), stepSpeed_lookup e3 (by decide),
      stepCourse_lookup e2 (by decide) (by decide) (by decide),
      stepHeading_lookup e1 (by decide)]

/-- C7 witness: the theorem applied to a row whose `distance_from_port` key
holds `None`. -/
theorem c7_distance_from_port_witness :
    pyLookup [("distance_from_port", Value.none),
        ("measure_distance_from_port", Value.num 1)]
      "measure_distance_from_port" = some (Value.num 1) :=
  (c7_distance_from_port ⟨fun _ => 0, fun _ => 0⟩
    [("distance_from_port", Value.none)]
    [("distance_from_port", Value.none),
      ("measure_distance_from_port", Value.num 1)] (by rfl)).1 (by rfl)

/-- C8: a present numeric `turn` yields
`measure_turn = min(1, abs(turn)/126)`; a present non-numeric `turn` (with
the earlier fields well typed, so that processing reaches the `turn` code)
aborts the stream with `AssertionError` rather than skipping the record. -/
theorem c8_turn (env : NormEnv) (row : Record) :
    (∀ out : Record, ∀ t : ℚ, normalizeRow env row = .ok out →
      pyGet row "turn" = Value.num t →
      pyLookup out "measure_turn" = some (Value.num (min 1 (|t| / 126)))) ∧
    (∀ v : Value, pyGet row "turn" = v → v ≠ Value.none →
      (∀ q : ℚ, v ≠ Value.num q) →
      numOrNone (pyGet row "heading") → numOrNone (pyGet row "course") →
      numOrNone (pyGet row "speed") →
      normalizeRow env row = .error PyErr.assertionError) := by
  constructor
  · intro out t hok ht
    obtain ⟨r1, r2, r3, r4, e1, e2, e3, e4, e5⟩ := normalizeRow_elim hok
    have hl : pyLookup row "turn" = some (Value.num t) :=
      pyGet_eq_some ht (by simp)
    have ht3 : pyGet r3 "turn" = Value.num t := by
      unfold pyGet
      rw [stepSpeed_lookup e3 (by decide),
        stepCourse_lookup e2 (by decide) (by decide) (by decide),
        stepHeading_lookup e1 (by decide), hl]
      rfl
    rw [stepDfp_lookup e5 (by decide)]
    exact stepTurn_writes e4 ht3
  · intro v hv h1 h2 hh hc hsp
    obtain ⟨r1, e1⟩ := stepHeading_ok row hh
    have hc1 : numOrNone (pyGet r1 "course") := by
      unfold pyGet at hc ⊢
      rw [stepHeading_lookup e1 (by decide)]
      exact hc
    obtain ⟨r2, e2⟩ := stepCourse_ok env r1 hc1
    have hs2 : numOrNone (pyGet r2 "speed") := by
      unfold pyGet at hsp ⊢
      rw [stepCourse_lookup e2 (by decide) (by decide) (by decide),
        stepHeading_lookup e1 (by decide)]
      exact hsp
    obtain ⟨r3, e3⟩ := stepSpeed_ok r2 hs2
    have hv3 : pyGet r3 "turn" = v := by
      unfold pyGet at hv ⊢
      rw [stepSpeed_lookup e3 (by decide),
        stepCourse_lookup e2 (by decide) (by decide) (by decide),
        stepHeading_lookup e1 (by decide)]
      exact hv
    have e4 : stepTurn r3 = .error PyErr.assertionError :=
      stepTurn_err hv3 h1 h2
    unfold normalizeRow
    rw [e1]
    simp only [Bind.bind, Except.bind]
    rw [e2]
    simp only [Except.bind]
    rw [e3]
    simp only [Except.bind]
    rw [e4]

/-- C8 witness: the abort branch applied to a row whose `turn` is a
string. -/
theorem c8_turn_witness :
    normalizeRow ⟨fun _ => 0, fun _ => 0⟩ [("turn", Value.str "x")]
      = .error PyErr.assertionError :=
  (c8_turn ⟨fun _ => 0, fun _ => 0⟩ [("turn", Value.str "x")]).2
    (Value.str "x") (by rfl) (by simp) (fun q h => by cases h)
    (Or.inl rfl) (Or.inl rfl) (Or.inl rfl)

theorem stepDfp_writes_none {row r' : Record} (e : stepDfp row = .ok r')
    (h : pyLookup row "distance_from_port" = some Value.none) :
    pyLookup r' "measure_distance_from_port" = some (Value.num 1) := by
  unfold stepDfp at e
  rw [hasKey, h] at e
  simp only [Option.isSome_some, if_true] at e
  rw [pyGet, h] at e
  simp only [Option.getD_some, Except.ok.injEq] at e
  subst e
  exact pyLookup_setVal_same _ _ _

theorem stepDfp_writes_num {row r' : Record} (e : stepDfp row = .ok r')
    {d : ℚ} (h : pyLookup row "distance_from_port" = some (Value.num d)) :
    pyLookup r' "measure_distance_from_port"
      = some (Value.num (min 1 (d / 30))) := by
  unfold stepDfp at e
  rw [hasKey, h] at e
  simp only [Option.isSome_some, if_true] at e
  rw [pyGet, h] at e
  simp only [Option.getD_some, Except.ok.injEq] at e
  subst e
  exact pyLookup_setVal_same _ _ _

theorem stepDfp_absent {row r' : Record} (e : stepDfp row = .ok r')
    (h : pyLookup row "distance_from_port" = Option.none) : r' = row := by
  unfold stepDfp at e
  rw [hasKey, h] at e
  simp only [Option.isSome_none, Bool.false_eq_true, if_false,
    Except.ok.injEq] at e
  exact e.symm

theorem stepHeading_types {row r' : Record} (h : stepHeading row = .ok r') :
    numOrNone (pyGet row "heading") := by
  unfold stepHeading at h
  cases hv : pyGet row "heading" <;> rw [hv] at h
  · exact Or.inl rfl
  · exact Or.inr ⟨_, rfl⟩
  all_goals exact Except.noConfusion h

theorem stepCourse_types {env : NormEnv} {row r' : Record}
    (h : stepCourse env row = .ok r') : numOrNone (pyGet row "course") := by
  unfold stepCourse at h
  cases hv : pyGet row "course" <;> rw [hv] at h
  · exact Or.inl rfl
  · exact Or.inr ⟨_, rfl⟩
  all_goals exact Except.noConfusion h

theorem stepSpeed_types {row r' : Record} (h : stepSpeed row = .ok r') :
    numOrNone (pyGet row "speed") := by
  unfold stepSpeed at h
  cases hv : pyGet row "speed" <;> rw [hv] at h
  · exact Or.inl rfl
  · exact Or.inr ⟨_, rfl⟩
  all_goals exact Except.noConfusion h

theorem stepTurn_types {row r' : Record} (h : stepTurn row = .ok r') :
    numOrNone (pyGet row "turn") := by
  unfold stepTurn at h
  cases hv : pyGet row "turn" <;> rw [hv] at h
  · exact Or.inl rfl
  · exact Or.inr ⟨_, rfl⟩
  all_goals exact Except.noConfusion h

theorem stepDfp_types {row r' : Record} (h : stepDfp row = .ok r') :
    numOrNone (pyGet row "distance_from_port") := by
  unfold stepDfp at h
  by_cases hp : hasKey row "distance_from_port"
  · rw [if_pos hp] at h
    cases hv : pyGet row "distance_from_port" <;> rw [hv] at h
    · exact Or.inl rfl
    · exact Or.inr ⟨_, rfl⟩
    all_goals exact Except.noConfusion h
  · unfold hasKey at hp
    unfold pyGet
    cases hl : pyLookup row "distance_from_port" with
    | none => exact Or.inl rfl
    | some v => rw [hl] at hp; simp at hp

theorem stepHeading_second {row out : Record}
    (hsame : pyLookup out "heading" = pyLookup row "heading")
    (hty : numOrNone (pyGet row "heading"))
    (hval : ∀ q : ℚ, pyGet row "heading" = Value.num q →
      pyLookup out "measure_heading" = some (Value.num (q / 360))) :
    stepHeading out = .ok out := by
  unfold stepHeading
  have hg : pyGet out "heading" = pyGet row "heading" := by
    unfold pyGet; rw [hsame]
  rw [hg]
  cases hv : pyGet row "heading" with
  | none => rfl
  | num q => exact congrArg Except.ok (setVal_eq_self _ _ _ (hval q hv))
  | dt q => rcases hty with h | ⟨q', h⟩ <;> rw [hv] at h <;> exact Value.noConfusion h
  | dur q => rcases hty with h | ⟨q', h⟩ <;> rw [hv] at h <;> exact Value.noConfusion h
  | str s => rcases hty with h | ⟨q', h⟩ <;> rw [hv] at h <;> exact Value.noConfusion h

theorem stepCourse_second {env : NormEnv} {row out : Record}
    (hsame : pyLookup out "course" = pyLookup row "course")
    (hty : numOrNone (pyGet row "course"))
    (hval : ∀ q : ℚ, pyGet row "course" = Value.num q →
      pyLookup out "measure_course" = some (Value.num (q / 360)) ∧
      pyLookup out "measure_cos_course" = some (Value.num (env.cosCourse q)) ∧
      pyLookup out "measure_sin_course" = some (Value.num (env.sinCourse q))) :
    stepCourse env out = .ok out := by
  unfold stepCourse
  have hg : pyGet out "course" = pyGet row "course" := by
    unfold pyGet; rw [hsame]
  rw [hg]
  cases hv : pyGet row "course" with
  | none => rfl
  | num q =>
      obtain ⟨h1, h2, h3⟩ := hval q hv
      exact congrArg Except.ok
        (by rw [setVal_eq_self _ _ _ h1, setVal_eq_self _ _ _ h2,
          setVal_eq_self _ _ _ h3])
  | dt q => rcases hty with h | ⟨q', h⟩ <;> rw [hv] at h <;> exact Value.noConfusion h
  | dur q => rcases hty with h | ⟨q', h⟩ <;> rw [hv] at h <;> exact Value.noConfusion h
  | str s => rcases hty with h | ⟨q', h⟩ <;> rw [hv] at h <;> exact Value.noConfusion h

theorem stepSpeed_second {row out : Record}
    (hsame : pyLookup out "speed" = pyLookup row "speed")
    (hty : numOrNone (pyGet row "speed"))
    (hval : ∀ q : ℚ, pyGet row "speed" = Value.num q →
      pyLookup out "measure_speed" = some (Value.num (1 - min 1 (q / 17)))) :
    stepSpeed out = .ok out := by
  unfold stepSpeed
  have hg : pyGet out "speed" = pyGet row "speed" := by
    unfold pyGet; rw [hsame]
  rw [hg]
  cases hv : pyGet row "speed" with
  | none => rfl
  | num q => exact congrArg Except.ok (setVal_eq_self _ _ _ (hval q hv))
  | dt q => rcases hty with h | ⟨q', h⟩ <;> rw [hv] at h <;> exact Value.noConfusion h
  | dur q => rcases hty with h | ⟨q', h⟩ <;> rw [hv] at h <;> exact Value.noConfusion h
  | str s => rcases hty with h | ⟨q', h⟩ <;> rw [hv] at h <;> exact Value.noConfusion h

theorem stepTurn_second {row out : Record}
    (hsame : pyLookup out "turn" = pyLookup row "turn")
    (hty : numOrNone (pyGet row "turn"))
    (hval : ∀ q : ℚ, pyGet row "turn" = Value.num q →
      pyLookup out "measure_turn" = some (Value.num (min 1 (|q| / 126)))) :
    stepTurn out = .ok out := by
  unfold stepTurn
  have hg : pyGet out "turn" = pyGet row "turn" := by
    unfold pyGet; rw [hsame]
  rw [hg]
  cases hv : pyGet row "turn" with
  | none => rfl
  | num q => exact congrArg Except.ok (setVal_eq_self _ _ _ (hval q hv))
  | dt q => rcases hty with h | ⟨q', h⟩ <;> rw [hv] at h <;> exact Value.noConfusion h
  | dur q => rcases hty with h | ⟨q', h⟩ <;> rw [hv] at h <;> exact Value.noConfusion h
  | str s => rcases hty with h | ⟨q', h⟩ <;> rw [hv] at h <;> exact Value.noConfusion h

theorem stepDfp_second {row out : Record}
    (hsame : pyLookup out "distance_from_port"
      = pyLookup row "distance_from_port")
    (hty : numOrNone (pyGet row "distance_from_port"))
    (hval1 : pyLookup row "distance_from_port" = some Value.none →
      pyLookup out "measure_distance_from_port" = some (Value.num 1))
    (hval2 : ∀ d : ℚ, pyLookup row "distance_from_port"
        = some (Value.num d) →
      pyLookup out "measure_distance_from_port"
        = some (Value.num (min 1 (d / 30)))) :
    stepDfp out = .ok out := by
  unfold stepDfp
  rw [hasKey, hsame]
  cases hv : pyLookup row "distance_from_port" with
  | none => simp
  | some v =>
      simp only [Option.isSome_some, if_true]
      have hg : pyGet out "distance_from_port" = v := by
        unfold pyGet; rw [hsame, hv]; rfl
      have hg' : pyGet row "distance_from_port" = v := by
        unfold pyGet; rw [hv]; rfl
      rw [hg]
      rw [hg'] at hty
      cases v with
      | none => exact congrArg Except.ok (setVal_eq_self _ _ _ (hval1 hv))
      | num d => exact congrArg Except.ok (setVal_eq_self _ _ _ (hval2 d hv))
      | dt q => rcases hty with h | ⟨q', h⟩ <;> exact Value.noConfusion h
      | dur q => rcases hty with h | ⟨q', h⟩ <;> exact Value.noConfusion h
      | str s2 => rcases hty with h | ⟨q', h⟩ <;> exact Value.noConfusion h

/-- Applying `normalizeRow` to its own output changes nothing: every
measure is recomputed from the still-present raw field and set to the same
value. -/
theorem normalizeRow_idem {env : NormEnv} {row out : Record}
    (h : normalizeRow env row = .ok out) : normalizeRow env out = .ok out := by
  obtain ⟨r1, r2, r3, r4, e1, e2, e3, e4, e5⟩ := normalizeRow_elim h
  have raw : ∀ k : String, k ≠ "measure_heading" → k ≠ "measure_course" →
      k ≠ "measure_cos_course" → k ≠ "measure_sin_course" →
      k ≠ "measure_speed" → k ≠ "measure_turn" →
      k ≠ "measure_distance_from_port" →
      pyLookup out k = pyLookup row k := by
    intro k h1 h2 h3 h4 h5 h6 h7
    exact normalizeRow_raw_lookup h h1 h2 h3 h4 h5 h6 h7
  have hH : stepHeading out = .ok out := by
    refine stepHeading_second (raw _ (by decide) (by decide) (by decide)
      (by decide) (by decide) (by decide) (by decide))
      (stepHeading_types e1) ?_
    intro q hq
    have hw := stepHeading_writes e1 hq
    rw [stepDfp_lookup e5 (by decide), stepTurn_lookup e4 (by decide),
      stepSpeed_lookup e3 (by decide),
      stepCourse_lookup e2 (by decide) (by decide) (by decide)]
    exact hw
  have hC : stepCourse env out = .ok out := by
    have hty1 : numOrNone (pyGet row "course") := by
      have hpg : pyGet r1 "course" = pyGet row "course" := by
        unfold pyGet; rw [stepHeading_lookup e1 (by decide)]
      rw [← hpg]
      exact stepCourse_types e2
    refine stepCourse_second (raw _ (by decide) (by decide) (by decide)
      (by decide) (by decide) (by decide) (by decide)) hty1 ?_
    intro q hq
    have hq1 : pyGet r1 "course" = Value.num q := by
      unfold pyGet
      rw [stepHeading_lookup e1 (by decide)]
      exact hq
    obtain ⟨w1, w2, w3⟩ := stepCourse_writes e2 hq1
    refine ⟨?_, ?_, ?_⟩ <;>
      rw [stepDfp_lookup e5 (by decide), stepTurn_lookup e4 (by decide),
        stepSpeed_lookup e3 (by decide)]
    · exact w1
    · exact w2
    · exact w3
  have hS : stepSpeed out = .ok out := by
    have hty2 : numOrNone (pyGet row "speed") := by
      have hpg : pyGet r2 "speed" = pyGet row "speed" := by
        unfold pyGet
        rw [stepCourse_lookup e2 (by decide) (by decide) (by decide),
          stepHeading_lookup e1 (by decide)]
      rw [← hpg]
      exact stepSpeed_types e3
    refine stepSpeed_second (raw _ (by decide) (by decide) (by decide)
      (by decide) (by decide) (by decide) (by decide)) hty2 ?_
    intro q hq
    have hq2 : pyGet r2 "speed" = Value.num q := by
      unfold pyGet
      rw [stepCourse_lookup e2 (by decide) (by decide) (by decide),
        stepHeading_lookup e1 (by decide)]
      exact hq
    have hw := stepSpeed_writes e3 hq2
    rw [stepDfp_lookup e5 (by decide), stepTurn_lookup e4 (by decide)]
    exact hw
  have hT : stepTurn out = .ok out := by
    have hty3 : numOrNone (pyGet row "turn") := by
      have hpg : pyGet r3 "turn" = pyGet row "turn" := by
        unfold pyGet
        rw [stepSpeed_lookup e3 (by decide),
          stepCourse_lookup e2 (by decide) (by decide) (by decide),
          stepHeading_lookup e1 (by decide)]
      rw [← hpg]
      exact stepTurn_types e4
    refine stepTurn_second (raw _ (by decide) (by decide) (by decide)
      (by decide) (by decide) (by decide) (by decide)) hty3 ?_
    intro q hq
    have hq3 : pyGet r3 "turn" = Value.num q := by
      unfold pyGet
      rw [stepSpeed_lookup e3 (by decide),
        stepCourse_lookup e2 (by decide) (by decide) (by decide),
        stepHeading_lookup e1 (by decide)]
      exact hq
    have hw := stepTurn_writes e4 hq3
    rw [stepDfp_lookup e5 (by decide)]
    exact hw
  have hdfp4 : pyLookup r4 "distance_from_port"
      = pyLookup row "distance_from_port" := by
    rw [stepTurn_lookup e4 (by decide), stepSpeed_lookup e3 (by decide),
      stepCourse_lookup e2 (by decide) (by decide) (by decide),
      stepHeading_lookup e1 (by decide)]
  have hD : stepDfp out = .ok out := by
    have hty4 : numOrNone (pyGet row "distance_from_port") := by
      have hpg : pyGet r4 "distance_from_port"
          = pyGet row "distance_from_port" := by
        unfold pyGet; rw [hdfp4]
      rw [← hpg]
      exact stepDfp_types e5
    refine stepDfp_second (raw _ (by decide) (by decide) (by decide)
      (by decide) (by decide) (by decide) (by decide)) hty4 ?_ ?_
    · intro hnone
      exact stepDfp_writes_none e5 (hdfp4.trans hnone)
    · intro d hnum
      exact stepDfp_writes_num e5 (hdfp4.trans hnum)
  unfold normalizeRow
  rw [hH]
  simp only [Bind.bind, Except.bind]
  rw [hC]
  simp only [Except.bind]
  rw [hS]
  simp only [Except.bind]
  rw [hT]
  simp only [Except.bind]
  exact hD

theorem mapM_ok_nth {f : Record → Except PyErr Record}
    {msgs outs : List Record} (h : msgs.mapM f = .ok outs) :
    outs.length = msgs.length ∧
    ∀ i r, msgs.get? i = some r → ∃ o, outs.get? i = some o ∧ f r = .ok o := by
  induction msgs generalizing outs with
  | nil =>
      simp only [List.mapM_nil, pure, Except.pure, Except.ok.injEq] at h
      subst h
      exact ⟨rfl, fun i r hr => by simp at hr⟩
  | cons a as ih =>
      rw [List.mapM_cons] at h
      simp only [Bind.bind] at h
      cases ea : f a with
      | error e => rw [ea] at h; simp only [Except.bind, reduceCtorEq] at h
      | ok b =>
          rw [ea] at h
          simp only [Except.bind] at h
          cases eas : as.mapM f with
          | error e => rw [eas] at h; simp only [Except.bind, reduceCtorEq] at h
          | ok bs =>
              rw [eas] at h
              simp only [Except.bind, pure, Except.pure, Except.ok.injEq] at h
              subst h
              obtain ⟨hlen, hnth⟩ := ih eas
              refine ⟨by simp [hlen], ?_⟩
              intro i r hr
              cases i with
              | zero =>
                  simp only [List.get?] at hr ⊢
                  exact ⟨b, rfl, by rw [← Option.some_inj.mp hr]; exact ea⟩
              | succ j =>
                  simp only [List.get?] at hr ⊢
                  exact hnth j r hr

theorem mapM_fix {f : Record → Except PyErr Record} {outs : List Record}
    (h : ∀ o ∈ outs, f o = .ok o) : outs.mapM f = .ok outs := by
  induction outs with
  | nil => simp only [List.mapM_nil]; rfl
  | cons a as ih =>
      rw [List.mapM_cons]
      simp only [Bind.bind]
      rw [h a (by simp)]
      simp only [Except.bind]
      rw [ih (fun o ho => h o (by simp [ho]))]
      rfl

/-- C9: the normalizer is stateless (the output at index `i` is
`normalizeRow` of the input at index `i`, independent of all other
records) and idempotent (applying it to its own output reproduces that
output exactly, hence identical values for every measure key). -/
theorem c9_normalizer_stateless_idempotent (env : NormEnv)
    (msgs outs : List Record)
    (h : AddNormalizedMeasures env msgs = .ok outs) :
    AddNormalizedMeasures env outs = .ok outs ∧
    ∀ i r o, msgs.get? i = some r → outs.get? i = some o →
      normalizeRow env r = .ok o := by
  obtain ⟨hlen, hnth⟩ := mapM_ok_nth h
  constructor
  · apply mapM_fix
    intro o ho
    obtain ⟨i, hi⟩ := List.get?_of_mem ho
    have hilt : i < msgs.length := by
      rw [← hlen]
      by_contra hge
      rw [List.get?_eq_none.mpr (le_of_not_lt hge)] at hi
      exact Option.noConfusion hi
    obtain ⟨r, hr⟩ : ∃ r, msgs.get? i = some r := by
      cases hg : msgs.get? i with
      | none =>
          rw [List.get?_eq_none] at hg
          exact absurd hg (not_le.mpr hilt)
      | some r => exact ⟨r, rfl⟩
    obtain ⟨o', ho', hf⟩ := hnth i r hr
    rw [hi] at ho'
    have : o = o' := Option.some_inj.mp ho'
    subst this
    exact normalizeRow_idem hf
  · intro i r o hr ho
    obtain ⟨o', ho', hf⟩ := hnth i r hr
    rw [ho] at ho'
    rw [← Option.some_inj.mp ho'] at hf
    exact hf

/-- C9 witness: idempotence on a one-record stream. -/
theorem c9_normalizer_witness :
    AddNormalizedMeasures ⟨fun _ => 0, fun _ => 0⟩
        [[("speed", Value.num 5),
          ("measure_speed", Value.num (1 - min 1 ((5:ℚ) / 17)))]]
      = .ok [[("speed", Value.num 5),
          ("measure_speed", Value.num (1 - min 1 ((5:ℚ) / 17)))]] :=
  (c9_normalizer_stateless_idempotent ⟨fun _ => 0, fun _ => 0⟩
    [[("speed", Value.num 5)]]
    [[("speed", Value.num 5),
      ("measure_speed", Value.num (1 - min 1 ((5:ℚ) / 17)))]] (by rfl)).1

/-!  Pair-stage lemmas. -/

theorem mapM_map_ok {α β : Type} {f : α → Except PyErr β} {g : α → β}
    {l : List α} (h : ∀ a ∈ l, f a = .ok (g a)) : l.mapM f = .ok (l.map g) := by
  induction l with
  | nil => simp only [List.mapM_nil, List.map_nil]; rfl
  | cons a as ih =>
      rw [List.mapM_cons]
      simp only [Bind.bind]
      rw [h a (by simp)]
      simp only [Except.bind]
      rw [ih (fun x hx => h x (by simp [hx]))]
      rfl

theorem strAppend_cancel {a b s : String} (h : a ++ s = b ++ s) : a = b := by
  have hd : (a ++ s).data = (b ++ s).data := by rw [h]
  rw [String.data_append, String.data_append] at hd
  exact String.ext (List.append_cancel_right hd)

theorem diffkeys_nodup : diffkeys.Nodup := by decide

theorem diffkeys_ne_diff :
    ∀ k ∈ diffkeys, ∀ k' ∈ diffkeys, k ≠ k' ++ "_diff" := by decide

theorem diff_ne_td :
    ∀ k ∈ diffkeys, k ≠ "timestamp" → k ++ "_diff" ≠ "timestamp_diff" := by
  decide

theorem td_eq_append : "timestamp_diff" = "timestamp" ++ "_diff" := rfl

theorem pyLookup_map_diff {ks : List String} {f : String → Value}
    {k0 : String} (hk : k0 ∈ ks) (hnd : ks.Nodup) :
    pyLookup (ks.map (fun k => (k ++ "_diff", f k))) (k0 ++ "_diff")
      = some (f k0) := by
  induction ks with
  | nil => cases hk
  | cons a rest ih =>
      rcases List.mem_cons.mp hk with h | h
      · subst h
        simp [pyLookup]
      · have hne : a ≠ k0 := by
          rintro rfl
          exact (List.nodup_cons.mp hnd).1 h
        have hne2 : a ++ "_diff" ≠ k0 ++ "_diff" :=
          fun hc => hne (strAppend_cancel hc)
        simp only [List.map_cons, pyLookup, if_neg hne2]
        exact ih h (List.nodup_cons.mp hnd).2

theorem pyLookup_map_diff_none {ks : List String} {f : String → Value}
    {k0 : String} (hk : k0 ∉ ks) :
    pyLookup (ks.map (fun k => (k ++ "_diff", f k))) (k0 ++ "_diff")
      = Option.none := by
  apply pyLookup_eq_none_of_forall
  intro kv hkv
  obtain ⟨k, hkmem, hkeq⟩ := List.mem_map.mp hkv
  rw [← hkeq]
  intro hc
  exact hk (strAppend_cancel hc ▸ hkmem)

theorem numOrAbsentB_present {r : Record} {k : String}
    (hb : numOrAbsentB r k = true) (hp : hasKey r k = true) :
    ∃ a : ℚ, pyLookup r k = some (Value.num a) := by
  unfold numOrAbsentB at hb
  unfold hasKey at hp
  cases hl : pyLookup r k with
  | none => rw [hl] at hp; exact absurd hp (by simp)
  | some v =>
      rw [hl] at hb
      cases v with
      | num a => exact ⟨a, rfl⟩
      | none => exact absurd hb (by simp)
      | dt q => exact absurd hb (by simp)
      | dur q => exact absurd hb (by simp)
      | str s => exact absurd hb (by simp)

theorem dtOrAbsentB_present {r : Record} {k : String}
    (hb : dtOrAbsentB r k = true) (hp : hasKey r k = true) :
    ∃ a : ℚ, pyLookup r k = some (Value.dt a) := by
  unfold dtOrAbsentB at hb
  unfold hasKey at hp
  cases hl : pyLookup r k with
  | none => rw [hl] at hp; exact absurd hp (by simp)
  | some v =>
      rw [hl] at hb
      cases v with
      | dt a => exact ⟨a, rfl⟩
      | none => exact absurd hb (by simp)
      | num q => exact absurd hb (by simp)
      | dur q => exact absurd hb (by simp)
      | str s => exact absurd hb (by simp)

theorem pairTypedB_parts {r : Record} (h : pairTypedB r = true) :
    (∀ k ∈ diffkeys, k ≠ "timestamp" → numOrAbsentB r k = true) ∧
    dtOrAbsentB r "timestamp" = true ∧
    pyLookup r "timestamp_diff" = Option.none := by
  unfold pairTypedB at h
  simp only [Bool.and_eq_true, List.all_eq_true, Bool.or_eq_true,
    decide_eq_true_eq, Option.isNone_iff_eq_none] at h
  obtain ⟨⟨h1, h2⟩, h3⟩ := h
  refine ⟨?_, h2, h3⟩
  intro k hk hkne
  rcases h1 k hk with h | h
  · exact absurd h hkne
  · exact h

theorem pairDiffs_run {msg prevR : Record}
    (hm : ∀ k ∈ diffkeys, k ≠ "timestamp" → numOrAbsentB msg k = true)
    (hmt : dtOrAbsentB msg "timestamp" = true)
    (hp : ∀ k ∈ diffkeys, k ≠ "timestamp" → numOrAbsentB prevR k = true)
    (hpt : dtOrAbsentB prevR "timestamp" = true) :
    pairDiffs msg prevR
      = .ok ((diffkeys.filter (fun k => hasKey msg k && hasKey prevR k)).map
          (fun k => (k ++ "_diff", dval msg prevR k))) := by
  unfold pairDiffs
  apply mapM_map_ok
  intro k hk
  obtain ⟨hkd, hkb⟩ := List.mem_filter.mp hk
  rw [Bool.and_eq_true] at hkb
  obtain ⟨hk1, hk2⟩ := hkb
  by_cases hts : k = "timestamp"
  · subst hts
    obtain ⟨a, ha⟩ := dtOrAbsentB_present hmt hk1
    obtain ⟨b, hb⟩ := dtOrAbsentB_present hpt hk2
    have hga : pyGet msg "timestamp" = Value.dt a := by
      unfold pyGet; rw [ha]; rfl
    have hgb : pyGet prevR "timestamp" = Value.dt b := by
      unfold pyGet; rw [hb]; rfl
    simp only [hga, hgb, valSub, Bind.bind, Except.bind, valAbs, dval, pure,
      Except.pure]
  · obtain ⟨a, ha⟩ := numOrAbsentB_present (hm k hkd hts) hk1
    obtain ⟨b, hb⟩ := numOrAbsentB_present (hp k hkd hts) hk2
    have hga : pyGet msg k = Value.num a := by
      unfold pyGet; rw [ha]; rfl
    have hgb : pyGet prevR k = Value.num b := by
      unfold pyGet; rw [hb]; rfl
    simp only [hga, hgb, valSub, Bind.bind, Except.bind, valAbs, dval, pure,
      Except.pure]

theorem pairTail_run (st1 : PState) (msg : Record)
    (hm : pairTypedB msg = true)
    (hp : ∀ k ∈ diffkeys, k ≠ "timestamp" →
      numOrAbsentB (st1.prev.getD msg) k = true)
    (hpt : dtOrAbsentB (st1.prev.getD msg) "timestamp" = true) :
    ∃ p out, pairTail st1 msg
        = .ok ({ current_track := st1.current_track, prev := some p }, out) ∧
      (∀ k ∈ diffkeys, pyLookup p k = pyLookup msg k) ∧
      diffConcl (st1.prev.getD msg) msg out ∧ tdNum out := by
  obtain ⟨hmn, hmt, hmtd⟩ := pairTypedB_parts hm
  have hds := pairDiffs_run hmn hmt hp hpt
  have hFsub : ∀ k ∈ diffkeys.filter
      (fun k => hasKey msg k && hasKey (st1.prev.getD msg) k), k ∈ diffkeys :=
    fun k hk => (List.mem_filter.mp hk).1
  have hFnd : (diffkeys.filter
      (fun k => hasKey msg k && hasKey (st1.prev.getD msg) k)).Nodup :=
    diffkeys_nodup.filter _
  have hpinv : ∀ k ∈ diffkeys,
      pyLookup (updateRec msg ((diffkeys.filter
        (fun k => hasKey msg k && hasKey (st1.prev.getD msg) k)).map
        (fun k => (k ++ "_diff", dval msg (st1.prev.getD msg) k)))) k
      = pyLookup msg k := by
    intro k hk
    apply pyLookup_updateRec_notMem
    intro kv hkv
    obtain ⟨k', hk', hkeq⟩ := List.mem_map.mp hkv
    rw [← hkeq]
    exact fun hc => diffkeys_ne_diff k hk k' (hFsub k' hk') hc.symm
  have hdslook : ∀ k ∈ diffkeys.filter
      (fun k => hasKey msg k && hasKey (st1.prev.getD msg) k),
      pyLookup (updateRec msg ((diffkeys.filter
        (fun k => hasKey msg k && hasKey (st1.prev.getD msg) k)).map
        (fun k => (k ++ "_diff", dval msg (st1.prev.getD msg) k))))
        (k ++ "_diff")
      = some (dval msg (st1.prev.getD msg) k) := by
    intro k hk
    rw [pyLookup_updateRec]
    rw [← List.map_reverse]
    rw [pyLookup_map_diff (by simpa using hk) (by simpa using hFnd)]
    rfl
  by_cases htsF : "timestamp" ∈ diffkeys.filter
      (fun k => hasKey msg k && hasKey (st1.prev.getD msg) k)
  · -- timestamp diffed: the duration is converted to seconds
    have hkk := (List.mem_filter.mp htsF).2
    rw [Bool.and_eq_true] at hkk
    obtain ⟨a, ha⟩ := dtOrAbsentB_present hmt hkk.1
    obtain ⟨b, hb⟩ := dtOrAbsentB_present hpt hkk.2
    have hdvalts : dval msg (st1.prev.getD msg) "timestamp"
        = Value.dur |a - b| := by
      unfold dval pyGet
      rw [ha, hb]
      rfl
    have htd1 : pyLookup (updateRec msg ((diffkeys.filter
        (fun k => hasKey msg k && hasKey (st1.prev.getD msg) k)).map
        (fun k => (k ++ "_diff", dval msg (st1.prev.getD msg) k))))
        "timestamp_diff" = some (Value.dur |a - b|) := by
      rw [td_eq_append, hdslook _ htsF, hdvalts]
    refine ⟨_, setVal "timestamp_diff" (Value.num |a - b|)
      (updateRec msg ((diffkeys.filter
        (fun k => hasKey msg k && hasKey (st1.prev.getD msg) k)).map
        (fun k => (k ++ "_diff", dval msg (st1.prev.getD msg) k)))),
      ?_, hpinv, ⟨?_, ?_⟩, ?_⟩
    · simp only [pairTail]
      rw [hds]
      simp only [Bind.bind, Except.bind]
      have hget : pyGet (updateRec msg ((diffkeys.filter
          (fun k => hasKey msg k && hasKey (st1.prev.getD msg) k)).map
          (fun k => (k ++ "_diff", dval msg (st1.prev.getD msg) k))))
          "timestamp_diff" = Value.dur |a - b| := by
        unfold pyGet
        rw [htd1]
        rfl
      rw [hget]
      simp only [totalSeconds, Bind.bind, Except.bind, pure, Except.pure]
    · intro k a' b' hk hkne hma hpb
      have hmk : hasKey msg k = true := by unfold hasKey; rw [hma]; rfl
      have hpk : hasKey (st1.prev.getD msg) k = true := by
        unfold hasKey; rw [hpb]; rfl
      have hkF : k ∈ diffkeys.filter
          (fun k => hasKey msg k && hasKey (st1.prev.getD msg) k) :=
        List.mem_filter.mpr ⟨hk, by rw [Bool.and_eq_true]; exact ⟨hmk, hpk⟩⟩
      rw [pyLookup_setVal_other _ _ _ _ (diff_ne_td k hk hkne).symm]
      rw [hdslook _ hkF]
      unfold dval pyGet
      rw [hma, hpb]
      rfl
    · intro a' b' hma hpb
      rw [ha] at hma
      rw [hb] at hpb
      have ha' : a' = a := by
        have := Option.some_inj.mp hma
        cases this
        rfl
      have hb' : b' = b := by
        have := Option.some_inj.mp hpb
        cases this
        rfl
      subst ha'
      subst hb'
      exact pyLookup_setVal_same _ _ _
    · intro v hv
      rw [pyLookup_setVal_same] at hv
      exact ⟨|a - b|, (Option.some_inj.mp hv).symm⟩
  · -- timestamp not diffed: no timestamp_diff key appears
    have htd1 : pyLookup (updateRec msg ((diffkeys.filter
        (fun k => hasKey msg k && hasKey (st1.prev.getD msg) k)).map
        (fun k => (k ++ "_diff", dval msg (st1.prev.getD msg) k))))
        "timestamp_diff" = Option.none := by
      rw [pyLookup_updateRec]
      rw [td_eq_append, ← List.map_reverse]
      rw [pyLookup_map_diff_none (by simpa using htsF)]
      rw [← td_eq_append]
      simp only [optOr]
      exact hmtd
    refine ⟨_, updateRec msg ((diffkeys.filter
        (fun k => hasKey msg k && hasKey (st1.prev.getD msg) k)).map
        (fun k => (k ++ "_diff", dval msg (st1.prev.getD msg) k))),
      ?_, hpinv, ⟨?_, ?_⟩, ?_⟩
    · simp only [pairTail]
      rw [hds]
      simp only [Bind.bind, Except.bind]
      have hget : pyGet (updateRec msg ((diffkeys.filter
          (fun k => hasKey msg k && hasKey (st1.prev.getD msg) k)).map
          (fun k => (k ++ "_diff", dval msg (st1.prev.getD msg) k))))
          "timestamp_diff" = Value.none := by
        unfold pyGet
        rw [htd1]
        rfl
      rw [hget]
      simp only [pure, Except.pure]
    · intro k a' b' hk hkne hma hpb
      have hmk : hasKey msg k = true := by unfold hasKey; rw [hma]; rfl
      have hpk : hasKey (st1.prev.getD msg) k = true := by
        unfold hasKey; rw [hpb]; rfl
      have hkF : k ∈ diffkeys.filter
          (fun k => hasKey msg k && hasKey (st1.prev.getD msg) k) :=
        List.mem_filter.mpr ⟨hk, by rw [Bool.and_eq_true]; exact ⟨hmk, hpk⟩⟩
      rw [hdslook _ hkF]
      unfold dval pyGet
      rw [hma, hpb]
      rfl
    · intro a' b' hma hpb
      have hmk : hasKey msg "timestamp" = true := by
        unfold hasKey; rw [hma]; rfl
      have hpk : hasKey (st1.prev.getD msg) "timestamp" = true := by
        unfold hasKey; rw [hpb]; rfl
      exact absurd (List.mem_filter.mpr ⟨by decide,
        by rw [Bool.and_eq_true]; exact ⟨hmk, hpk⟩⟩) htsF
    · intro v hv
      rw [htd1] at hv
      exact Option.noConfusion hv

theorem zeroConcl_of_self {msg out : Record} (hm : pairTypedB msg = true)
    (hd : diffConcl msg msg out) : zeroConcl msg out := by
  obtain ⟨hmn, hmt, _⟩ := pairTypedB_parts hm
  constructor
  · intro k hk hkne hkey
    obtain ⟨a, ha⟩ := numOrAbsentB_present (hmn k hk hkne) hkey
    have h := hd.1 k a a hk hkne ha ha
    rw [sub_self, abs_zero] at h
    exact h
  · intro hkey
    obtain ⟨a, ha⟩ := dtOrAbsentB_present hmt hkey
    have h := hd.2 a a ha ha
    rw [sub_self, abs_zero] at h
    exact h

theorem diffConcl_transfer {p pm msg out : Record}
    (hpk : ∀ k ∈ diffkeys, pyLookup p k = pyLookup pm k)
    (hd : diffConcl p msg out) : diffConcl pm msg out := by
  constructor
  · intro k a b hk hkne hma hpb
    exact hd.1 k a b hk hkne hma (by rw [hpk k hk]; exact hpb)
  · intro a b hma hpb
    exact hd.2 a b hma (by rw [hpk "timestamp" (by decide)]; exact hpb)

theorem pairAux_run : ∀ (sfx : List Record) (st : PState)
    (pm? : Option Record),
    (∀ r ∈ sfx, pairTypedB r = true ∧ r.isEmpty = false) →
    (match pm? with
     | Option.none => st = pairInit
     | some pm =>
         pairTypedB pm = true ∧
         (∃ ct, st.current_track = some ct ∧ ct.isEmpty = false ∧
           trackId ct = trackId pm) ∧
         (∃ p, st.prev = some p ∧
           ∀ k ∈ diffkeys, pyLookup p k = pyLookup pm k)) →
    ∃ tr, pairAux st sfx = .ok tr ∧ tr.length = sfx.length ∧
      pairConcls pm? sfx (tr.map Prod.snd) := by
  intro sfx
  induction sfx with
  | nil =>
      intro st pm? _ _
      exact ⟨[], rfl, rfl, trivial⟩
  | cons msg rest ih =>
      intro st pm? hall hinv
      obtain ⟨hmT, hmNE⟩ := hall msg (by simp)
      obtain ⟨hmn, hmt, hmtd⟩ := pairTypedB_parts hmT
      have hrest : ∀ r ∈ rest, pairTypedB r = true ∧ r.isEmpty = false :=
        fun r hr => hall r (by simp [hr])
      cases pm? with
      | none =>
          have hst : st = pairInit := hinv
          have hb : pairBoundary st.current_track msg = true := by
            rw [hst]; rfl
          have hstep : pairStep st msg
              = pairTail { current_track := some msg, prev := Option.none }
                  msg := by
            unfold pairStep
            rw [hb]
            simp
          obtain ⟨p, out, heq, hpinv, hdc, htd⟩ :=
            pairTail_run { current_track := some msg, prev := Option.none }
              msg hmT (fun k hk hkne => hmn k hk hkne) hmt
          obtain ⟨tr', e', hlen', hconcl'⟩ :=
            ih { current_track := some msg, prev := some p } (some msg)
              hrest ⟨hmT, ⟨msg, rfl, hmNE, rfl⟩, ⟨p, rfl, hpinv⟩⟩
          refine ⟨({ current_track := some msg, prev := some p }, out) :: tr',
            ?_, by simp [hlen'], ?_⟩
          · unfold pairAux
            rw [hstep, heq]
            simp only [Bind.bind, Except.bind]
            rw [e']
            rfl
          · refine ⟨⟨zeroConcl_of_self hmT hdc, htd⟩, ?_⟩
            simpa using hconcl'
      | some pm =>
          obtain ⟨hpmT, ⟨ct, hct, hctne, hcttr⟩, ⟨p, hprev, hpk⟩⟩ := hinv
          by_cases hEq : trackId msg = trackId pm
          · -- same track: no boundary
            have hb : pairBoundary st.current_track msg = false := by
              rw [hct]
              simp [pairBoundary, hctne, hcttr, hEq]
            have hstep : pairStep st msg = pairTail st msg := by
              unfold pairStep
              rw [hb]
              simp
            have hgetp : st.prev.getD msg = p := by rw [hprev]; rfl
            obtain ⟨hpmn, hpmt, _⟩ := pairTypedB_parts hpmT
            have hpn : ∀ k ∈ diffkeys, k ≠ "timestamp" →
                numOrAbsentB (st.prev.getD msg) k = true := by
              intro k hk hkne
              rw [hgetp]
              unfold numOrAbsentB
              rw [hpk k hk]
              have := hpmn k hk hkne
              unfold numOrAbsentB at this
              exact this
            have hptt : dtOrAbsentB (st.prev.getD msg) "timestamp" = true := by
              rw [hgetp]
              unfold dtOrAbsentB
              rw [hpk "timestamp" (by decide)]
              unfold dtOrAbsentB at hpmt
              exact hpmt
            obtain ⟨p', out, heq, hpinv, hdc, htd⟩ :=
              pairTail_run st msg hmT hpn hptt
            have hdcp : diffConcl p msg out := by rw [hgetp] at hdc; exact hdc
            obtain ⟨tr', e', hlen', hconcl'⟩ :=
              ih { current_track := st.current_track, prev := some p' }
                (some msg) hrest
                ⟨hmT, ⟨ct, hct, hctne, by rw [hcttr, hEq]⟩, ⟨p', rfl, hpinv⟩⟩
            refine ⟨({ current_track := st.current_track, prev := some p' },
                out) :: tr', ?_, by simp [hlen'], ?_⟩
            · unfold pairAux
              rw [hstep, heq]
              simp only [Bind.bind, Except.bind]
              rw [e']
              rfl
            · refine ⟨⟨fun hne => absurd hEq hne,
                fun _ => diffConcl_transfer hpk hdcp, htd⟩, ?_⟩
              simpa using hconcl'
          · -- different track: boundary
            have hb : pairBoundary st.current_track msg = true := by
              rw [hct]
              simp [pairBoundary, hctne, hcttr, hEq]
            have hstep : pairStep st msg
                = pairTail { current_track := some msg, prev := Option.none }
                    msg := by
              unfold pairStep
              rw [hb]
              simp
            obtain ⟨p', out, heq, hpinv, hdc, htd⟩ :=
              pairTail_run { current_track := some msg, prev := Option.none }
                msg hmT (fun k hk hkne => hmn k hk hkne) hmt
            obtain ⟨tr', e', hlen', hconcl'⟩ :=
              ih { current_track := some msg, prev := some p' } (some msg)
                hrest ⟨hmT, ⟨msg, rfl, hmNE, rfl⟩, ⟨p', rfl, hpinv⟩⟩
            refine ⟨({ current_track := some msg, prev := some p' }, out)
                :: tr', ?_, by simp [hlen'], ?_⟩
            · unfold pairAux
              rw [hstep, heq]
              simp only [Bind.bind, Except.bind]
              rw [e']
              rfl
            · refine ⟨⟨fun _ => zeroConcl_of_self hmT hdc,
                fun heq2 => absurd heq2 hEq, htd⟩, ?_⟩
              simpa using hconcl'

/-- C3 (amended): along any well-typed stream, on a track's FIRST record
every diffed field present in the record receives a ZERO diff (the record
is diffed against itself; the original claim's "no `_diff` keys" is false,
see the counterexample); on every subsequent record of the same track, a
field present in both it and the immediately prior record receives the
absolute difference; `timestamp_diff`, whenever present on an output, is a
plain number of seconds, never a duration. -/
theorem c3_pair_diff (msgs : List Record)
    (ht : ∀ r ∈ msgs, pairTypedB r = true ∧ r.isEmpty = false) :
    ∃ tr, pairTrace msgs = .ok tr ∧ tr.length = msgs.length ∧
      pairConcls Option.none msgs (tr.map Prod.snd) :=
  pairAux_run msgs pairInit Option.none ht rfl

/-- C3 counterexample: the very first record of a track does receive a
`_diff` key - `lat_diff = 0` here - contradicting the claim that the first
record of every track receives no `_diff` keys. -/
theorem c3_pair_diff_cex :
    pairOutputs [[("lat", Value.num 5)]]
      = .ok [[("lat", Value.num 5), ("lat_diff", Value.num 0)]] ∧
    pyLookup [("lat", Value.num 5), ("lat_diff", Value.num 0)] "lat_diff"
      = some (Value.num 0) := by
  have h0 : |(5 : ℚ) - 5| = 0 := by norm_num
  constructor
  · have e : pairOutputs [[("lat", Value.num 5)]]
        = .ok [[("lat", Value.num 5), ("lat_diff", Value.num |(5:ℚ) - 5|)]] :=
      rfl
    rw [e, h0]
  · rfl

/-- C3 witness: the amended theorem applied to a two-record track. -/
theorem c3_pair_diff_witness :
    ∃ tr, pairTrace [[("lat", Value.num 5), ("timestamp", Value.dt 10)],
        [("lat", Value.num 7), ("timestamp", Value.dt 25)]] = .ok tr ∧
      tr.length = 2 ∧
      pairConcls Option.none
        [[("lat", Value.num 5), ("timestamp", Value.dt 10)],
         [("lat", Value.num 7), ("timestamp", Value.dt 25)]]
        (tr.map Prod.snd) :=
  c3_pair_diff
    [[("lat", Value.num 5), ("timestamp", Value.dt 10)],
     [("lat", Value.num 7), ("timestamp", Value.dt 25)]]
    (by decide)

/-!  Log-variant lemmas (`add_measures_to_row` lines 101-104). -/

theorem rlookup_append_none {l1 l2 : List (String × ℝ)} {k : String}
    (h : rlookup l1 k = Option.none) : rlookup (l1 ++ l2) k = rlookup l2 k := by
  induction l1 with
  | nil => rfl
  | cons hd tl ih =>
      obtain ⟨k', v'⟩ := hd
      by_cases hk : k' = k
      · simp only [rlookup, if_pos hk] at h
        exact Option.noConfusion h
      · simp only [rlookup, if_neg hk] at h
        simp only [List.cons_append, rlookup, if_neg hk]
        exact ih h

theorem strAppend_log_cancel {a b : String} (h : a ++ "_log" = b ++ "_log") :
    a = b := strAppend_cancel h

theorem rlookup_logpart {s : List (String × ℝ)} {k : String} {v : ℝ}
    (hv : rlookup s k = some v) :
    rlookup ((s.filter (fun kv => strContains kv.1 "stddev")).map
        (fun kv => (kv.1 ++ "_log", Real.logb 10 (kv.2 + 1 / 1000))))
        (k ++ "_log")
      = if strContains k "stddev" = true then
          some (Real.logb 10 (v + 1 / 1000))
        else rlookup ((s.filter (fun kv => strContains kv.1 "stddev")).map
          (fun kv => (kv.1 ++ "_log", Real.logb 10 (kv.2 + 1 / 1000))))
          (k ++ "_log") := by
  induction s with
  | nil => cases hv
  | cons hd tl ih =>
      obtain ⟨k', v'⟩ := hd
      by_cases hk : k' = k
      · subst hk
        have hv' : v' = v := by simpa [rlookup] using hv
        subst hv'
        by_cases hstd : strContains k' "stddev" = true
        · rw [if_pos hstd]
          simp [List.filter_cons, hstd, rlookup]
        · simp only [if_neg hstd]
      · simp only [rlookup, if_neg hk] at hv
        have ihx := ih hv
        by_cases hstd : strContains k "stddev" = true
        · rw [if_pos hstd] at ihx
          rw [if_pos hstd]
          by_cases hstd' : strContains k' "stddev" = true
          · simp only [List.filter_cons, hstd', List.map_cons, rlookup]
            rw [if_neg (fun hc => hk (strAppend_log_cancel hc))]
            simpa [hstd'] using ihx
          · simp only [List.filter_cons]
            rw [if_neg (by simpa using hstd')]
            exact ihx
        · rw [if_neg hstd]

/-- C6: for every aggregate key containing `"stddev"`, the `_log` pass of
`add_measures_to_row` writes the key with `"_log"` appended, holding
`log10(value + EPSILON)` with `EPSILON = 1e-3`; and at an aggregate value
of exactly `0.0` that logarithm is `log10(0.001) = -3`. -/
theorem c6_log_variant (s : List (String × ℝ)) (k : String) (v : ℝ)
    (hv : rlookup s k = some v)
    (hstd : strContains k "stddev" = true)
    (hfresh : rlookup s (k ++ "_log") = Option.none) :
    rlookup (addLogMeasuresR s) (k ++ "_log")
      = some (Real.logb 10 (v + 1 / 1000)) ∧
    Real.logb 10 ((0 : ℝ) + 1 / 1000) = -3 := by
  constructor
  · unfold addLogMeasuresR
    rw [rlookup_append_none hfresh]
    have := rlookup_logpart hv
    rw [if_pos hstd] at this
    exact this
  · have h1 : ((0 : ℝ) + 1 / 1000) = (10 : ℝ) ^ (-3 : ℤ) := by norm_num
    rw [h1, Real.logb, Real.log_zpow]
    have h2 : Real.log 10 ≠ 0 := ne_of_gt (Real.log_pos (by norm_num))
    push_cast
    rw [mul_div_assoc, div_self h2, mul_one]

/-- C6 witness: a `stddev` aggregate of value `0` yields a `_log` entry
equal to `log10(0 + 1e-3) = -3`. -/
theorem c6_log_variant_witness :
    rlookup (addLogMeasuresR [("measure_speedstddev_3600", (0 : ℝ))])
        ("measure_speedstddev_3600" ++ "_log")
      = some (Real.logb 10 ((0 : ℝ) + 1 / 1000)) ∧
    Real.logb 10 ((0 : ℝ) + 1 / 1000) = -3 :=
  c6_log_variant [("measure_speedstddev_3600", (0 : ℝ))]
    "measure_speedstddev_3600" 0 (by rfl) (by decide) (by rfl)

/-!  Window-engine support lemmas. -/

theorem get?_eq_some_getD {l : List Record} {n : ℕ} (h : n < l.length) :
    l.get? n = some (l.getD n []) := by
  rw [List.getD_eq_getElem _ _ h]
  rw [List.get?_eq_getElem?]
  exact List.getElem?_eq_getElem h

theorem pyLookup_ne_nil {r : Record} {k : String} {v : Value}
    (h : pyLookup r k = some v) : r.isEmpty = false := by
  cases r with
  | nil => exact Option.noConfusion h
  | cons hd tl => rfl

theorem sliceMS_self {msgs : List Record} {i : ℕ} (h : i < msgs.length) :
    sliceMS msgs i i = {msgs.getD i []} := by
  unfold sliceMS
  have hd : msgs.drop i = msgs.getD i [] :: msgs.drop (i + 1) := by
    rw [List.drop_eq_getElem_cons h]
    rw [List.getD_eq_getElem _ _ h]
  rw [hd]
  simp

theorem sliceMS_cons {msgs : List Record} {s i : ℕ} (hs : s < i)
    (hi : i < msgs.length) :
    sliceMS msgs s i = msgs.getD s [] ::ₘ sliceMS msgs (s + 1) i := by
  unfold sliceMS
  have hslen : s < msgs.length := lt_trans hs hi
  have hd : msgs.drop s = msgs.getD s [] :: msgs.drop (s + 1) := by
    rw [List.drop_eq_getElem_cons hslen]
    rw [List.getD_eq_getElem _ _ hslen]
  rw [hd]
  have harith : i + 1 - s = (i - s) + 1 := by omega
  have harith2 : i + 1 - (s + 1) = i - s := by omega
  rw [harith, harith2]
  simp [List.take_succ_cons]

theorem sliceMS_snoc {msgs : List Record} {s i : ℕ} (hs : s ≤ i + 1)
    (hi : i + 1 < msgs.length) :
    sliceMS msgs s (i + 1) = msgs.getD (i + 1) [] ::ₘ sliceMS msgs s i := by
  unfold sliceMS
  have harith : i + 1 + 1 - s = (i + 1 - s) + 1 := by omega
  rw [harith, List.take_succ]
  have hidx : (msgs.drop s)[i + 1 - s]? = some (msgs.getD (i + 1) []) := by
    rw [List.getElem?_drop]
    have harr : s + (i + 1 - s) = i + 1 := by omega
    rw [harr]
    rw [List.getD_eq_getElem _ _ hi]
    exact List.getElem?_eq_getElem hi
  rw [hidx]
  have : ((((msgs.drop s).take (i + 1 - s)) ++ [msgs.getD (i + 1) []] :
      List Record) : Multiset Record)
      = msgs.getD (i + 1) [] ::ₘ (((msgs.drop s).take (i + 1 - s) :
        List Record) : Multiset Record) := by
    rw [← Multiset.coe_add]
    rw [← Multiset.cons_coe]
    rw [← Multiset.singleton_add]
    rw [add_comm]
    rfl
  simpa using this

theorem mem_slice {msgs : List Record} {a n : ℕ} {x : Record}
    (hx : x ∈ (msgs.drop a).take n) :
    ∃ j, a ≤ j ∧ j < a + n ∧ j < msgs.length ∧ x = msgs.getD j [] := by
  obtain ⟨idx, hidx, hxeq⟩ := List.getElem_of_mem hx
  have hb : idx < n ∧ a + idx < msgs.length := by
    simp [List.length_take, List.length_drop] at hidx
    omega
  have h1 : idx < n := hb.1
  have h3 : a + idx < msgs.length := hb.2
  refine ⟨a + idx, by omega, by omega, h3, ?_⟩
  rw [← hxeq]
  rw [List.getElem_take, List.getElem_drop]
  rw [List.getD_eq_getElem _ _ h3]

theorem trackStartIdx_succ (msgs : List Record) (i : ℕ) :
    trackStartIdx msgs (i + 1)
      = if trackId (msgs.getD (i + 1) []) = trackId (msgs.getD i []) then
          trackStartIdx msgs i
        else i + 1 := rfl

theorem trackStartIdx_le (msgs : List Record) (i : ℕ) :
    trackStartIdx msgs i ≤ i := by
  induction i with
  | zero => exact le_refl 0
  | succ n ih =>
      rw [trackStartIdx_succ]
      by_cases h : trackId (msgs.getD (n + 1) []) = trackId (msgs.getD n [])
      · rw [if_pos h]
        omega
      · rw [if_neg h]

theorem trackId_eq_of_trackStart (msgs : List Record) :
    ∀ i j, trackStartIdx msgs i ≤ j → j ≤ i →
    trackId (msgs.getD j []) = trackId (msgs.getD i []) := by
  intro i
  induction i with
  | zero =>
      intro j h1 h2
      have : j = 0 := by omega
      rw [this]
  | succ n ih =>
      intro j h1 h2
      by_cases h : trackId (msgs.getD (n + 1) []) = trackId (msgs.getD n [])
      · have hts : trackStartIdx msgs (n + 1) = trackStartIdx msgs n := by
          rw [trackStartIdx_succ, if_pos h]
        rcases Nat.lt_or_ge j (n + 1) with hj | hj
        · rw [hts] at h1
          rw [ih j h1 (by omega), h]
        · have hj2 : j = n + 1 := by omega
          rw [hj2]
      · have hts : trackStartIdx msgs (n + 1) = n + 1 := by
          rw [trackStartIdx_succ, if_neg h]
        rw [hts] at h1
        have hj2 : j = n + 1 := by omega
        rw [hj2]

theorem ts_mono {msgs : List Record} {tsf : ℕ → ℚ}
    (hmono : ∀ j, j + 1 < msgs.length →
      trackId (msgs.getD (j + 1) []) = trackId (msgs.getD j []) →
      tsf j ≤ tsf (j + 1))
    {i a b : ℕ} (hi : i < msgs.length) (h1 : trackStartIdx msgs i ≤ a)
    (hab : a ≤ b) (hbi : b ≤ i) : tsf a ≤ tsf b := by
  revert hbi
  induction b, hab using Nat.le_induction with
  | base => intro _; exact le_refl _
  | succ b hb ih =>
      intro hbi
      have hbi' : b ≤ i := by omega
      have htr : trackId (msgs.getD (b + 1) []) = trackId (msgs.getD b []) := by
        have e1 := trackId_eq_of_trackStart msgs i (b + 1) (by omega) hbi
        have e2 := trackId_eq_of_trackStart msgs i b (by omega) hbi'
        rw [e1, e2]
      exact le_trans (ih hbi') (hmono b (by omega) htr)

theorem catchup_spec {msgs : List Record} {endidx : ℕ}
    (hend : endidx < msgs.length) :
    ∀ (fuel : ℕ) (st : WState), -1 ≤ st.startidx →
      st.startidx < (endidx : ℤ) →
      (endidx : ℤ) - st.startidx < (fuel : ℤ) →
    ∃ st', catchup msgs endidx fuel st = .ok st' ∧
      st'.startidx = (endidx : ℤ) ∧
      st'.start = some (msgs.getD endidx []) ∧
      st'.current_track = st.current_track ∧ st'.prev = st.prev ∧
      st'.stats = st.stats := by
  intro fuel
  induction fuel with
  | zero =>
      intro st h1 h2 h3
      exfalso
      simp only [Nat.cast_zero] at h3
      omega
  | succ f ih =>
      intro st h1 h2 h3
      have hs1 : ((st.startidx + 1).toNat : ℤ) = st.startidx + 1 :=
        Int.toNat_of_nonneg (by omega)
      have hs1len : (st.startidx + 1).toNat < msgs.length := by
        have : ((st.startidx + 1).toNat : ℤ) < (msgs.length : ℤ) := by
          rw [hs1]
          have : (endidx : ℤ) < (msgs.length : ℤ) := by exact_mod_cast hend
          omega
        exact_mod_cast this
      have hn : nextStart msgs st.startidx
          = .ok (st.startidx + 1,
              msgs.getD (st.startidx + 1).toNat []) := by
        unfold nextStart
        rw [get?_eq_some_getD hs1len]
      have hstep : catchup msgs endidx (f + 1) st
          = catchup msgs endidx f
              { st with
                startidx := st.startidx + 1,
                start := some (msgs.getD (st.startidx + 1).toNat []) } := by
        conv_lhs => rw [catchup]
        rw [if_pos h2, hn]
      by_cases hlt : st.startidx + 1 < (endidx : ℤ)
      · rw [hstep]
        obtain ⟨st', he, hA, hB, hC, hD, hE⟩ :=
          ih { st with
                startidx := st.startidx + 1,
                start := some (msgs.getD (st.startidx + 1).toNat []) }
            (by simp; omega) (by simpa using hlt)
            (by simp; push_cast at h3 ⊢; omega)
        exact ⟨st', he, hA, hB, hC, hD, hE⟩
      · have heq : st.startidx + 1 = (endidx : ℤ) := by omega
        have htn : (st.startidx + 1).toNat = endidx := by
          have : ((st.startidx + 1).toNat : ℤ) = (endidx : ℤ) := by
            rw [hs1, heq]
          exact_mod_cast this
        rw [hstep]
        rcases f with _ | f2
        · exfalso
          push_cast at h3
          omega
        · refine ⟨{ st with
              startidx := st.startidx + 1,
              start := some (msgs.getD (st.startidx + 1).toNat []) },
              ?_, ?_, ?_, rfl, rfl, rfl⟩
          · conv_lhs => rw [catchup]
            rw [if_neg (by simp [heq])]
          · simpa using heq
          · simp [htn]

theorem evict_spec {msgs : List Record} {tsf : ℕ → ℚ}
    (hts : ∀ j, j < msgs.length →
      pyLookup (msgs.getD j []) "timestamp" = some (Value.dt (tsf j)))
    {w : ℚ} (hw : 0 ≤ w) {i : ℕ} (hi : i < msgs.length) :
    ∀ (fuel s : ℕ) (st : WState), st.startidx = (s : ℤ) →
      st.start = some (msgs.getD s []) → st.stats = sliceMS msgs s i →
      s ≤ i → i - s < fuel →
    ∃ st' s', evictLoop msgs w (Value.dt (tsf i)) fuel st = .ok st' ∧
      s ≤ s' ∧ s' ≤ i ∧
      (∀ j, s ≤ j → j < s' → w < tsf i - tsf j) ∧
      tsf i - tsf s' ≤ w ∧
      st'.startidx = (s' : ℤ) ∧ st'.start = some (msgs.getD s' []) ∧
      st'.stats = sliceMS msgs s' i ∧
      st'.current_track = st.current_track ∧ st'.prev = st.prev := by
  intro fuel
  induction fuel with
  | zero =>
      intro s st _ _ _ hsi hf
      omega
  | succ f ih =>
      intro s st hsx hstart hstats hsi hf
      have hcond : evictCond w (Value.dt (tsf i)) st.start
          = .ok (decide (w < tsf i - tsf s)) := by
        rw [hstart]
        simp only [evictCond, pyLookup_ne_nil (hts s (by omega)),
          Bool.false_eq_true, if_false, hts s (by omega), valSub,
          Bind.bind, Except.bind]
      by_cases hwlt : w < tsf i - tsf s
      · -- evict the start record and advance
        have hsne : s ≠ i := by
          intro hcontra
          subst hcontra
          simp at hwlt
          linarith
        have hslt : s < i := lt_of_le_of_ne hsi hsne
        have hdec : decide (w < tsf i - tsf s) = true := by simp [hwlt]
        rw [hdec] at hcond
        have hne : (msgs.getD s []).isEmpty = false :=
          pyLookup_ne_nil (hts s (by omega))
        have herase :
            (if (msgs.getD s []).isEmpty then st.stats
             else st.stats.erase (msgs.getD s []))
              = sliceMS msgs (s + 1) i := by
          rw [hne]
          simp only [Bool.false_eq_true, if_false]
          rw [hstats, sliceMS_cons hslt hi, Multiset.erase_cons_head]
        have htn : ((s : ℤ) + 1).toNat = s + 1 := by
          have : ((s : ℤ) + 1) = ((s + 1 : ℕ) : ℤ) := by push_cast; ring
          rw [this, Int.toNat_natCast]
        have hs1len : s + 1 < msgs.length := by omega
        have hn : nextStart msgs st.startidx
            = .ok ((s : ℤ) + 1, msgs.getD (s + 1) []) := by
          unfold nextStart
          rw [hsx, htn, get?_eq_some_getD hs1len]
        have hloop : evictLoop msgs w (Value.dt (tsf i)) (f + 1) st
            = evictLoop msgs w (Value.dt (tsf i)) f
                { st with
                  startidx := (s : ℤ) + 1,
                  start := some (msgs.getD (s + 1) []),
                  stats := sliceMS msgs (s + 1) i } := by
          conv_lhs => rw [evictLoop]
          rw [hcond]
          simp only [if_true, hstart, hne, Bool.false_eq_true, if_false, hn]
          try rw [hstats, sliceMS_cons hslt hi, Multiset.erase_cons_head]
        rw [hloop]
        obtain ⟨st', s', he, ha1, ha2, ha3, ha4, ha5, ha6, ha7, ha8, ha9⟩ :=
          ih (s + 1)
            { st with
              startidx := (s : ℤ) + 1,
              start := some (msgs.getD (s + 1) []),
              stats := sliceMS msgs (s + 1) i }
            (by push_cast; ring) rfl rfl (by omega) (by omega)
        refine ⟨st', s', he, by omega, ha2, ?_, ha4, ha5, ha6, ha7, ha8, ha9⟩
        intro j hj1 hj2
        rcases Nat.eq_or_lt_of_le hj1 with hj | hj
        · rw [← hj]
          exact hwlt
        · exact ha3 j hj hj2
      · -- window condition satisfied: stop
        have hdec : decide (w < tsf i - tsf s) = false := by simp [hwlt]
        rw [hdec] at hcond
        refine ⟨st, s, ?_, le_refl s, hsi, by omega, le_of_not_lt hwlt,
          hsx, hstart, hstats, rfl, rfl⟩
        conv_lhs => rw [evictLoop]
        rw [hcond]
        simp only [Bool.false_eq_true, if_false]

theorem processStep_inv (cfg : EngCfg) (msgs : List Record) (tsf : ℕ → ℚ)
    (hw : 0 ≤ cfg.w)
    (hts : ∀ j, j < msgs.length →
      pyLookup (msgs.getD j []) "timestamp" = some (Value.dt (tsf j)))
    (hmono : ∀ j, j + 1 < msgs.length →
      trackId (msgs.getD (j + 1) []) = trackId (msgs.getD j []) →
      tsf j ≤ tsf (j + 1))
    (i : ℕ) (hi : i < msgs.length) (st : WState)
    (hInv : WInv cfg msgs tsf i st) :
    ∃ st', processStep cfg msgs (msgs.length + 2) i (msgs.getD i []) st
        = .ok (st', addMeasuresToRow cfg st'.stats (msgs.getD i [])) ∧
      WInv cfg msgs tsf (i + 1) st' ∧
      st.startidx ≤ st'.startidx ∧
      (wBoundary st.current_track (msgs.getD i []) = true →
        ∃ stMid, boundaryReset msgs (msgs.length + 2) i (msgs.getD i []) st
            = .ok stMid ∧
          stMid.startidx = (i : ℤ) ∧ stMid.stats = 0 ∧
          stMid.prev = Option.none ∧
          stMid.current_track = some (msgs.getD i [])) := by
  have hE := hts i hi
  have hEne : (msgs.getD i []).isEmpty = false := pyLookup_ne_nil hE
  have hhk : hasKey (msgs.getD i []) "timestamp" = true := by
    unfold hasKey
    rw [hE]
    rfl
  have hpg : pyGet (msgs.getD i []) "timestamp" = Value.dt (tsf i) := by
    unfold pyGet
    rw [hE]
    rfl
  by_cases hb : wBoundary st.current_track (msgs.getD i []) = true
  · -- track boundary (also the very first record)
    have hpre : -1 ≤ st.startidx ∧ st.startidx < (i : ℤ) ∧
        st.prev = Option.none := by
      rcases i with _ | m
      · rw [hInv]
        exact ⟨by decide, by decide, rfl⟩
      · obtain ⟨hprev, hct, s, hs1, hs2, hsx, hstart, hcnd, hle, hstats⟩ := hInv
        refine ⟨by rw [hsx]; omega, by rw [hsx]; exact_mod_cast by omega, hprev⟩
    obtain ⟨h1, h2, hprev0⟩ := hpre
    have hfuel : (i : ℤ) - st.startidx < ((msgs.length + 2 : ℕ) : ℤ) := by
      have : (i : ℤ) < (msgs.length : ℤ) := by exact_mod_cast hi
      push_cast
      omega
    obtain ⟨stM0, hcat, hA, hB, hC, hD, hE2⟩ :=
      catchup_spec hi (msgs.length + 2) st h1 h2 hfuel
    have hbr : boundaryReset msgs (msgs.length + 2) i (msgs.getD i []) st
        = .ok (startTrack stM0 (msgs.getD i [])) := by
      unfold boundaryReset
      rw [hcat]
      rfl
    have hstats1 : (msgs.getD i [])
        ::ₘ (startTrack stM0 (msgs.getD i [])).stats = sliceMS msgs i i := by
      unfold startTrack
      rw [sliceMS_self hi]
      rfl
    obtain ⟨st', s', he, ha1, ha2, ha3, ha4, ha5, ha6, ha7, ha8, ha9⟩ :=
      evict_spec hts hw hi (msgs.length + 2) i
        { startTrack stM0 (msgs.getD i []) with
          stats := (msgs.getD i [])
            ::ₘ (startTrack stM0 (msgs.getD i [])).stats }
        (by unfold startTrack; simpa using hA)
        (by unfold startTrack; simpa using hB)
        (by simpa using hstats1)
        (le_refl i) (by omega)
    have hsi2 : s' = i := by omega
    have hb5 : st'.startidx = (i : ℤ) := by rw [ha5, hsi2]
    have hb6 : st'.start = some (msgs.getD i []) := by rw [ha6, hsi2]
    have hb7 : st'.stats = sliceMS msgs i i := by rw [ha7, hsi2]
    have htsi : trackStartIdx msgs i = i := by
      rcases i with _ | m
      · rfl
      · rw [trackStartIdx_succ]
        rw [if_neg]
        obtain ⟨hprev, hct, s, hs1, hs2, hsx, hstart, hcnd, hle, hstats⟩ := hInv
        rw [hct] at hb
        simp only [wBoundary] at hb
        have hctne : (msgs.getD (trackStartIdx msgs m) []).isEmpty = false :=
          pyLookup_ne_nil (hts _ (lt_of_le_of_lt
            (le_trans (trackStartIdx_le msgs m) (by omega)) hi))
        rw [hctne] at hb
        simp only [Bool.false_or, decide_eq_true_eq] at hb
        rw [trackId_eq_of_trackStart msgs m (trackStartIdx msgs m)
          (le_refl _) (trackStartIdx_le msgs m)] at hb
        exact hb
    refine ⟨st', ?_, ?_, ?_, ?_⟩
    · unfold processStep
      rw [if_pos hb]
      simp only [Bind.bind]
      rw [hbr]
      simp only [Except.bind]
      rw [if_pos hhk]
      rw [hpg]
      rw [he]
      simp only [Except.bind, pure, Except.pure]
    · refine ⟨?_, ?_, i, ?_, le_refl i, hb5, hb6, ?_, ?_, hb7⟩
      · rw [ha9]
        rfl
      · rw [htsi]
        have hcteq : st'.current_track
            = (startTrack stM0 (msgs.getD i [])).current_track := ha8
        rw [hcteq]
        rfl
      · rw [htsi]
      · intro j hj1 hj2
        rw [htsi] at hj1
        omega
      · simpa using hw
    · rw [hb5]
      omega
    · intro _
      refine ⟨startTrack stM0 (msgs.getD i []), hbr, ?_, rfl, rfl, rfl⟩
      unfold startTrack
      simpa using hA
  · -- same track as the previous record
    rcases i with _ | m
    · exfalso
      rw [hInv] at hb
      exact hb rfl
    obtain ⟨hprev, hct, s, hs1, hs2, hsx, hstart, hcnd, hle, hstats⟩ := hInv
    have hmlen : m < msgs.length := by omega
    have htreq : trackId (msgs.getD (m + 1) []) = trackId (msgs.getD m []) := by
      rw [hct] at hb
      simp only [wBoundary] at hb
      have hctne : (msgs.getD (trackStartIdx msgs m) []).isEmpty = false :=
        pyLookup_ne_nil (hts _ (lt_of_le_of_lt
          (le_trans (trackStartIdx_le msgs m) (by omega)) hi))
      rw [hctne] at hb
      simp only [Bool.false_or, decide_eq_true_eq, not_not,
        Bool.false_eq_true] at hb
      rw [trackId_eq_of_trackStart msgs m (trackStartIdx msgs m)
        (le_refl _) (trackStartIdx_le msgs m)] at hb
      exact hb
    have htsi : trackStartIdx msgs (m + 1) = trackStartIdx msgs m := by
      rw [trackStartIdx_succ, if_pos htreq]
    have hstats1 : (msgs.getD (m + 1) []) ::ₘ st.stats
        = sliceMS msgs s (m + 1) := by
      rw [hstats]
      rw [sliceMS_snoc (by omega) hi]
    obtain ⟨st', s', he, ha1, ha2, ha3, ha4, ha5, ha6, ha7, ha8, ha9⟩ :=
      evict_spec hts hw hi (msgs.length + 2) s
        { st with stats := (msgs.getD (m + 1) []) ::ₘ st.stats }
        (by simpa using hsx) (by simpa using hstart) (by simpa using hstats1)
        (by omega) (by omega)
    have htsmono : tsf m ≤ tsf (m + 1) := hmono m hi htreq
    refine ⟨st', ?_, ?_, ?_, ?_⟩
    · unfold processStep
      rw [if_neg hb]
      simp only [Bind.bind, Except.bind, pure, Except.pure]
      rw [if_pos hhk]
      rw [hpg]
      rw [he]
    · refine ⟨?_, ?_, s', ?_, ha2, ha5, ha6, ?_, ha4, ha7⟩
      · rw [ha9]
        exact hprev
      · rw [htsi, ha8]
        exact hct
      · rw [htsi]
        omega
      · intro j hj1 hj2
        rw [htsi] at hj1
        rcases Nat.lt_or_ge j s with hj | hj
        · have := hcnd j hj1 hj
          linarith
        · exact ha3 j hj hj2
    · rw [hsx, ha5]
      exact_mod_cast ha1
    · intro hcontra
      exact absurd hcontra hb

theorem traceStateAt_cons (st : WState) (c : WState × Record)
    (tr : List (WState × Record)) (j : ℕ) :
    traceStateAt st (c :: tr) (j + 1) = traceStateAt c.1 tr j := by
  cases j with
  | zero => rfl
  | succ j2 => rfl

theorem processAux_inv (cfg : EngCfg) (msgs : List Record) (tsf : ℕ → ℚ)
    (hw : 0 ≤ cfg.w)
    (hts : ∀ j, j < msgs.length →
      pyLookup (msgs.getD j []) "timestamp" = some (Value.dt (tsf j)))
    (hmono : ∀ j, j + 1 < msgs.length →
      trackId (msgs.getD (j + 1) []) = trackId (msgs.getD j []) →
      tsf j ≤ tsf (j + 1)) :
    ∀ (k n : ℕ), n + k = msgs.length →
    ∀ st : WState, WInv cfg msgs tsf n st →
    ∃ tr, processAux cfg msgs (List.enumFrom n (msgs.drop n)) st = .ok tr ∧
      tr.length = k ∧
      ∀ j, j < k →
        WInv cfg msgs tsf (n + j + 1) (traceStateAt st tr (j + 1)) ∧
        (tr.getD j (initWState, [])).2
          = addMeasuresToRow cfg (traceStateAt st tr (j + 1)).stats
              (msgs.getD (n + j) []) ∧
        (traceStateAt st tr j).startidx
          ≤ (traceStateAt st tr (j + 1)).startidx ∧
        (wBoundary (traceStateAt st tr j).current_track
            (msgs.getD (n + j) []) = true →
          ∃ stMid, boundaryReset msgs (msgs.length + 2) (n + j)
              (msgs.getD (n + j) []) (traceStateAt st tr j)
              = .ok stMid ∧
            stMid.startidx = ((n + j : ℕ) : ℤ) ∧ stMid.stats = 0 ∧
            stMid.prev = Option.none ∧
            stMid.current_track = some (msgs.getD (n + j) [])) := by
  intro k
  induction k with
  | zero =>
      intro n hn st _
      have hd : msgs.drop n = [] := List.drop_eq_nil_of_le (by omega)
      refine ⟨[], ?_, rfl, fun j hj => absurd hj (Nat.not_lt_zero j)⟩
      rw [hd]
      rfl
  | succ k ih =>
      intro n hn st hInv
      have hnlt : n < msgs.length := by omega
      have hdr : msgs.drop n = msgs.getD n [] :: msgs.drop (n + 1) := by
        rw [List.drop_eq_getElem_cons hnlt]
        rw [List.getD_eq_getElem msgs [] hnlt]
      obtain ⟨st', hstep, hInv', hmon, hbnd⟩ :=
        processStep_inv cfg msgs tsf hw hts hmono n hnlt st hInv
      obtain ⟨tr', he', hlen', hconcl'⟩ := ih (n + 1) (by omega) st' hInv'
      refine ⟨(st', addMeasuresToRow cfg st'.stats (msgs.getD n [])) :: tr',
        ?_, by simp [hlen'], ?_⟩
      · rw [hdr]
        simp only [List.enumFrom, processAux, hstep, he']
      · intro j hj
        rcases j with _ | j'
        · refine ⟨by simpa using hInv',
            by simp only [Nat.add_zero, List.getD_cons_zero]; rfl, hmon, ?_⟩
          simpa using hbnd
        · have hj' : j' < k := by omega
          obtain ⟨q1, q2, q3, q4⟩ := hconcl' j' hj'
          have harith : n + (j' + 1) = n + 1 + j' := by omega
          rw [List.getD_cons_succ, harith,
            traceStateAt_cons st
              (st', addMeasuresToRow cfg st'.stats (msgs.getD n [])) tr'
              (j' + 1),
            traceStateAt_cons st
              (st', addMeasuresToRow cfg st'.stats (msgs.getD n [])) tr' j']
          exact ⟨q1, q2, q3, q4⟩

/-!  Aggregate-dict and key-suffix lemmas for the window measures. -/

theorem qlookup_map_suffix (s : List (String × ℚ)) (sfx k : String) :
    qlookup (s.map (fun kv => (kv.1 ++ sfx, kv.2))) (k ++ sfx)
      = qlookup s k := by
  induction s with
  | nil => rfl
  | cons hd tl ih =>
      obtain ⟨a, b⟩ := hd
      by_cases hak : a = k
      · subst hak
        simp [qlookup]
      · have hne : a ++ sfx ≠ k ++ sfx := fun h => hak (strAppend_cancel h)
        simp [qlookup, hak, hne, ih]

theorem qlookup_qset_same (k : String) (v : ℚ) (l : List (String × ℚ)) :
    qlookup (qset k v l) k = some v := by
  induction l with
  | nil => simp [qset, qlookup]
  | cons hd tl ih =>
      obtain ⟨a, b⟩ := hd
      by_cases hak : a = k <;> simp [qset, qlookup, hak, ih]

theorem qget_eq_qlookup (l : List (String × ℚ)) (k : String) :
    qget l k = (qlookup l k).getD 0 := by
  induction l with
  | nil => rfl
  | cons hd tl ih =>
      obtain ⟨a, b⟩ := hd
      by_cases hak : a = k <;> simp [qget, qlookup, hak, ih]

theorem qset_keys_of_mem (k : String) (v : ℚ) (l : List (String × ℚ))
    (h : ∃ kv ∈ l, kv.1 = k) :
    (qset k v l).map Prod.fst = l.map Prod.fst := by
  induction l with
  | nil => simp at h
  | cons hd tl ih =>
      obtain ⟨a, b⟩ := hd
      by_cases hak : a = k
      · subst hak
        simp [qset]
      · obtain ⟨kv, hkv, hk1⟩ := h
        rcases List.mem_cons.mp hkv with he | hm
        · exact absurd (by rw [he] at hk1; exact hk1) hak
        · simp [qset, hak, ih ⟨kv, hm, hk1⟩]

theorem mem_qset_key (k : String) (v : ℚ) (l : List (String × ℚ)) :
    ∃ kv ∈ qset k v l, kv.1 = k := by
  induction l with
  | nil => exact ⟨(k, v), by simp [qset]⟩
  | cons hd tl ih =>
      obtain ⟨a, b⟩ := hd
      by_cases hak : a = k
      · exact ⟨(k, v), by simp [qset, hak]⟩
      · obtain ⟨kv, hm, hk⟩ := ih
        exact ⟨kv, by simp only [qset, if_neg hak]; exact List.mem_cons_of_mem _ hm, hk⟩

theorem pyLookup_map_num (s : List (String × ℚ)) (k : String) :
    pyLookup (s.map (fun kv => (kv.1, Value.num kv.2))) k
      = (qlookup s k).map Value.num := by
  induction s with
  | nil => rfl
  | cons hd tl ih =>
      obtain ⟨a, b⟩ := hd
      by_cases hak : a = k <;> simp [pyLookup, qlookup, hak, ih]

theorem optOr_none_right (a : Option Value) : optOr a Option.none = a := by
  cases a <;> rfl

theorem pyLookup_reverse_nodup (l : Record) (k : String)
    (h : (l.map Prod.fst).Nodup) :
    pyLookup l.reverse k = pyLookup l k := by
  induction l with
  | nil => rfl
  | cons hd tl ih =>
      obtain ⟨a, b⟩ := hd
      have hrev : ((a, b) :: tl).reverse = tl.reverse ++ [(a, b)] := by simp
      rw [hrev, pyLookup_append]
      simp only [List.map_cons, List.nodup_cons] at h
      by_cases hak : a = k
      · subst hak
        have htl : pyLookup tl a = Option.none :=
          pyLookup_eq_none_of_forall tl a (fun kv hkv he =>
            h.1 (by rw [← he]; exact List.mem_map_of_mem Prod.fst hkv))
        have htlr : pyLookup tl.reverse a = Option.none := by
          rw [ih h.2, htl]
        simp [pyLookup, htlr, optOr]
      · simp [pyLookup, hak, optOr_none_right, ih h.2]

theorem pyLookup_isSome_mem (l : Record) (k : String)
    (h : (pyLookup l k).isSome = true) : ∃ v, (k, v) ∈ l := by
  induction l with
  | nil => simp [pyLookup] at h
  | cons hd tl ih =>
      obtain ⟨a, b⟩ := hd
      by_cases hak : a = k
      · subst hak
        exact ⟨b, List.mem_cons_self ..⟩
      · simp only [pyLookup, if_neg hak] at h
        obtain ⟨v, hv⟩ := ih h
        exact ⟨v, List.mem_cons_of_mem _ hv⟩

theorem isPrefixOf_append_self (p c : List Char) :
    p.isPrefixOf (p ++ c) = true := by
  induction p with
  | nil => simp [List.isPrefixOf]
  | cons a t ih => simp [List.isPrefixOf, ih]

theorem containsL_of_mid (a p c : List Char) :
    containsL (a ++ p ++ c) p = true := by
  unfold containsL
  rw [List.any_eq_true]
  refine ⟨a.length, List.mem_range.mpr ?_, ?_⟩
  · simp only [List.length_append]
    omega
  · rw [List.append_assoc, List.drop_left]
    exact isPrefixOf_append_self p c

theorem strContains_mid (a p c : String) :
    strContains ((a ++ p) ++ c) p = true := by
  unfold strContains
  have hd : ((a ++ p) ++ c).data = a.data ++ p.data ++ c.data := by
    simp [String.data_append]
  rw [hd]
  exact containsL_of_mid a.data p.data c.data

theorem strContains_suffix (a p : String) : strContains (a ++ p) p = true := by
  unfold strContains
  have hd : (a ++ p).data = a.data ++ p.data ++ [] := by
    simp [String.data_append]
  rw [hd]
  exact containsL_of_mid a.data p.data []

theorem digitChar_mem (d : ℕ) :
    digitChar d ∈ ['0', '1', '2', '3', '4', '5', '6', '7', '8', '9'] := by
  rcases d with _ | _ | _ | _ | _ | _ | _ | _ | _ | _ | d <;>
    first
      | decide
      | exact (by decide :
          ('9' : Char) ∈ ['0', '1', '2', '3', '4', '5', '6', '7', '8', '9'])

theorem natDigitsAux_last (fuel n : ℕ) (h : 1 ≤ fuel) :
    ∃ d, (natDigitsAux fuel n).getLast? = some (digitChar d) := by
  rcases fuel with _ | f
  · omega
  · unfold natDigitsAux
    by_cases hn : n < 10
    · exact ⟨n, by rw [if_pos hn]; rfl⟩
    · exact ⟨n % 10, by rw [if_neg hn]; exact List.getLast?_concat ..⟩

theorem getLast?_cons_some {a x : Char} {l : List Char}
    (h : l.getLast? = some x) : (a :: l).getLast? = some x := by
  have he : a :: l = [a] ++ l := rfl
  rw [he, List.getLast?_append, h]
  rfl

theorem winSuffix_last (w : ℚ) :
    ∃ d, (winSuffix w).data.getLast? = some (digitChar d) := by
  have hdata : (winSuffix w).data = '_' :: intDecimal (pyInt w) := rfl
  rw [hdata]
  unfold intDecimal
  by_cases hneg : pyInt w < 0
  · obtain ⟨d, hd⟩ :=
      natDigitsAux_last ((pyInt w).natAbs + 1) (pyInt w).natAbs (by omega)
    refine ⟨d, ?_⟩
    rw [if_pos hneg]
    exact getLast?_cons_some (getLast?_cons_some hd)
  · obtain ⟨d, hd⟩ :=
      natDigitsAux_last ((pyInt w).toNat + 1) (pyInt w).toNat (by omega)
    refine ⟨d, ?_⟩
    rw [if_neg hneg]
    exact getLast?_cons_some hd

theorem suffixed_ne_log (a b : String) (w : ℚ) :
    a ++ winSuffix w ≠ b ++ "_log" := by
  intro h
  obtain ⟨d, hd⟩ := winSuffix_last w
  have hdata : a.data ++ (winSuffix w).data = b.data ++ "_log".data := by
    have h2 := congrArg String.data h
    simpa [String.data_append] using h2
  have hL : (a.data ++ (winSuffix w).data).getLast? = some (digitChar d) := by
    rw [List.getLast?_append, hd]
    rfl
  have hR : (b.data ++ "_log".data).getLast? = some 'g' := by
    rw [List.getLast?_append]
    rfl
  rw [hdata, hR] at hL
  have hg : 'g' = digitChar d := by injection hL
  have hmem := digitChar_mem d
  rw [← hg] at hmem
  revert hmem
  decide

theorem windowMeasures_posDict (cfg : EngCfg) (stats : Multiset Record) :
    windowMeasures cfg stats
      = (posDict cfg stats).map (fun kv => (kv.1 ++ winSuffix cfg.w, kv.2))
        ++ (((posDict cfg stats).map
              (fun kv => (kv.1 ++ winSuffix cfg.w, kv.2))).filter
              (fun kv => strContains kv.1 "stddev")).map
            (fun kv => (kv.1 ++ "_log", cfg.log10F (kv.2 + 1 / 1000))) := rfl

theorem posDict_keys (cfg : EngCfg) (stats : Multiset Record) :
    (posDict cfg stats).map Prod.fst = statKeys := by
  have hm0 : ∃ kv ∈ statKeys.map (fun k => (k, cfg.statsGet stats k)),
      kv.1 = "measure_pos" :=
    ⟨("measure_pos", cfg.statsGet stats "measure_pos"),
      List.mem_map_of_mem _ (by decide), rfl⟩
  simp only [posDict]
  rw [qset_keys_of_mem _ _ _ (mem_qset_key _ _ _),
    qset_keys_of_mem _ _ _ (mem_qset_key _ _ _),
    qset_keys_of_mem _ _ _ hm0]
  simp [Function.comp_def]

theorem posDict_pos (cfg : EngCfg) (stats : Multiset Record) :
    qlookup (posDict cfg stats) "measure_pos"
      = some (min 1 (cfg.statsGet stats "measure_pos" * 60
          / (cfg.w / 60 / 60) / 17)) := by
  have h0 : qget (statKeys.map (fun k => (k, cfg.statsGet stats k)))
      "measure_pos" = cfg.statsGet stats "measure_pos" := by
    simp [statKeys, qget]
  simp only [posDict]
  rw [qlookup_qset_same, qget_eq_qlookup, qlookup_qset_same, Option.getD_some,
    qget_eq_qlookup, qlookup_qset_same, Option.getD_some, h0]

theorem windowMeasures_keys (cfg : EngCfg) (stats : Multiset Record) :
    ∀ kv ∈ windowMeasures cfg stats,
      ∃ b, b ∈ statKeys ∧
        (kv.1 = b ++ winSuffix cfg.w ∨ kv.1 = b ++ winSuffix cfg.w ++ "_log") := by
  intro kv hkv
  rw [windowMeasures_posDict] at hkv
  rcases List.mem_append.mp hkv with hm | hm
  · obtain ⟨kv0, hkv0, heq⟩ := List.mem_map.mp hm
    refine ⟨kv0.1, ?_, Or.inl ?_⟩
    · rw [← posDict_keys cfg stats]
      exact List.mem_map_of_mem Prod.fst hkv0
    · rw [← heq]
  · obtain ⟨kv1, hkv1, heq⟩ := List.mem_map.mp hm
    obtain ⟨kv0, hkv0, heq0⟩ := List.mem_map.mp (List.mem_filter.mp hkv1).1
    refine ⟨kv0.1, ?_, Or.inr ?_⟩
    · rw [← posDict_keys cfg stats]
      exact List.mem_map_of_mem Prod.fst hkv0
    · rw [← heq, ← heq0]

theorem windowMeasures_keys_contain (cfg : EngCfg) (stats : Multiset Record) :
    ∀ kv ∈ windowMeasures cfg stats,
      strContains kv.1 (winSuffix cfg.w) = true := by
  intro kv hkv
  obtain ⟨b, _, hb | hb⟩ := windowMeasures_keys cfg stats kv hkv
  · rw [hb]
    exact strContains_suffix b (winSuffix cfg.w)
  · rw [hb]
    exact strContains_mid b (winSuffix cfg.w) "_log"

theorem addMeasuresToRow_preserves (cfg : EngCfg) (stats : Multiset Record)
    (r : Record) (k : String)
    (hk : strContains k (winSuffix cfg.w) = false) :
    pyLookup (addMeasuresToRow cfg stats r) k = pyLookup r k := by
  unfold addMeasuresToRow
  apply pyLookup_updateRec_notMem
  intro kv hkv hc
  obtain ⟨kv0, hkv0, heq⟩ := List.mem_map.mp hkv
  have hcont : strContains k (winSuffix cfg.w) = true := by
    rw [← hc, ← heq]
    exact windowMeasures_keys_contain cfg stats kv0 hkv0
  rw [hk] at hcont
  exact Bool.noConfusion hcont

theorem addMeasuresToRow_keys (cfg : EngCfg) (stats : Multiset Record)
    (r : Record) (k : String)
    (hk : hasKey (addMeasuresToRow cfg stats r) k = true) :
    hasKey r k = true ∨
    ∃ b, b ∈ statKeys ∧
      (k = b ++ winSuffix cfg.w ∨ k = b ++ winSuffix cfg.w ++ "_log") := by
  unfold hasKey at hk ⊢
  unfold addMeasuresToRow at hk
  rw [pyLookup_updateRec] at hk
  cases hrev : pyLookup ((windowMeasures cfg stats).map
      (fun kv => (kv.1, Value.num kv.2))).reverse k with
  | none =>
      rw [hrev] at hk
      exact Or.inl hk
  | some v =>
      obtain ⟨v', hv'⟩ := pyLookup_isSome_mem _ _ (by rw [hrev]; rfl)
      have hmem : (k, v') ∈ (windowMeasures cfg stats).map
          (fun kv => (kv.1, Value.num kv.2)) := List.mem_reverse.mp hv'
      obtain ⟨kv0, hkv0, heq⟩ := List.mem_map.mp hmem
      obtain ⟨b, hb, hbk⟩ := windowMeasures_keys cfg stats kv0 hkv0
      refine Or.inr ⟨b, hb, ?_⟩
      have hkeq : kv0.1 = k := congrArg Prod.fst heq
      rw [← hkeq]
      exact hbk

theorem addMeasuresToRow_pos (cfg : EngCfg) (stats : Multiset Record)
    (r : Record) :
    pyLookup (addMeasuresToRow cfg stats r)
        ("measure_pos" ++ winSuffix cfg.w)
      = some (Value.num (min 1 (cfg.statsGet stats "measure_pos" * 60
          / (cfg.w / 60 / 60) / 17))) := by
  unfold addMeasuresToRow
  rw [pyLookup_updateRec, windowMeasures_posDict, List.map_append,
    List.reverse_append, pyLookup_append]
  have hB : pyLookup (((((posDict cfg stats).map
      (fun kv => (kv.1 ++ winSuffix cfg.w, kv.2))).filter
        (fun kv => strContains kv.1 "stddev")).map
        (fun kv => (kv.1 ++ "_log", cfg.log10F (kv.2 + 1 / 1000)))).map
        (fun kv => (kv.1, Value.num kv.2))).reverse
      ("measure_pos" ++ winSuffix cfg.w) = Option.none := by
    apply pyLookup_eq_none_of_forall
    intro kv hkv hc
    obtain ⟨kv1, hkv1, heq1⟩ := List.mem_map.mp (List.mem_reverse.mp hkv)
    obtain ⟨kv2, _, heq2⟩ := List.mem_map.mp hkv1
    have hk1 : kv.1 = kv2.1 ++ "_log" := by
      rw [← heq1, ← heq2]
    rw [hk1] at hc
    exact suffixed_ne_log "measure_pos" kv2.1 cfg.w hc.symm
  have hkeyseq : ((((posDict cfg stats).map
      (fun kv => (kv.1 ++ winSuffix cfg.w, kv.2))).map
        (fun kv => (kv.1, Value.num kv.2))).map Prod.fst)
      = statKeys.map (fun b => b ++ winSuffix cfg.w) := by
    rw [← posDict_keys cfg stats]
    simp [List.map_map, Function.comp_def]
  have hA : pyLookup ((((posDict cfg stats).map
      (fun kv => (kv.1 ++ winSuffix cfg.w, kv.2))).map
        (fun kv => (kv.1, Value.num kv.2))).reverse)
      ("measure_pos" ++ winSuffix cfg.w)
      = pyLookup (((posDict cfg stats).map
          (fun kv => (kv.1 ++ winSuffix cfg.w, kv.2))).map
          (fun kv => (kv.1, Value.num kv.2)))
        ("measure_pos" ++ winSuffix cfg.w) := by
    apply pyLookup_reverse_nodup
    rw [hkeyseq]
    exact (by decide : statKeys.Nodup).map
      (fun a b hab => strAppend_cancel hab)
  rw [hB, hA, pyLookup_map_num, qlookup_map_suffix, posDict_pos]
  rfl

theorem slice_eq_windowClosed {msgs : List Record} {tsf : ℕ → ℚ} {w : ℚ}
    (hts : ∀ j, j < msgs.length →
      pyLookup (msgs.getD j []) "timestamp" = some (Value.dt (tsf j)))
    (hmono : ∀ j, j + 1 < msgs.length →
      trackId (msgs.getD (j + 1) []) = trackId (msgs.getD j []) →
      tsf j ≤ tsf (j + 1))
    {i s : ℕ} (hi : i < msgs.length)
    (h1 : trackStartIdx msgs i ≤ s) (h2 : s ≤ i)
    (hcnd : ∀ j, trackStartIdx msgs i ≤ j → j < s → w < tsf i - tsf j)
    (hle : tsf i - tsf s ≤ w) :
    sliceMS msgs s i = windowSpecClosed msgs w i := by
  have hrts : recTs (msgs.getD i []) = some (tsf i) := by
    unfold recTs
    rw [hts i hi]
  simp only [windowSpecClosed, hrts]
  suffices hgen : ∀ p : Record → Bool,
      (∀ j, trackStartIdx msgs i ≤ j → j < s → p (msgs.getD j []) = false) →
      (∀ j, s ≤ j → j ≤ i → p (msgs.getD j []) = true) →
      sliceMS msgs s i
        = ((((msgs.take (i + 1)).drop (trackStartIdx msgs i)).filter p :
            List Record) : Multiset Record) by
    refine hgen _ ?_ ?_
    · intro j hj1 hj2
      have hjlen : j < msgs.length := by omega
      have hr : recTs (msgs.getD j []) = some (tsf j) := by
        unfold recTs
        rw [hts j hjlen]
      simp only [hr, decide_eq_false_iff_not, not_and]
      intro hcontra
      have hwlt := hcnd j hj1 hj2
      intro hcontra2
      linarith
    · intro j hj1 hj2
      have hjlen : j < msgs.length := by omega
      have hr : recTs (msgs.getD j []) = some (tsf j) := by
        unfold recTs
        rw [hts j hjlen]
      simp only [hr, decide_eq_true_eq]
      constructor
      · have hsj : tsf s ≤ tsf j := ts_mono hmono hi h1 hj1 hj2
        linarith
      · exact ts_mono hmono hi (le_trans h1 hj1) hj2 le_rfl
  intro p hpf hpt
  have hsplit : (msgs.take (i + 1)).drop (trackStartIdx msgs i)
      = (msgs.drop (trackStartIdx msgs i)).take (s - trackStartIdx msgs i)
        ++ (msgs.drop s).take (i + 1 - s) := by
    rw [List.drop_take]
    have harith : i + 1 - trackStartIdx msgs i
        = (s - trackStartIdx msgs i) + (i + 1 - s) := by omega
    have harith2 : trackStartIdx msgs i + (s - trackStartIdx msgs i) = s := by
      omega
    rw [harith, List.take_add, List.drop_drop, harith2]
  have hA : ((msgs.drop (trackStartIdx msgs i)).take
      (s - trackStartIdx msgs i)).filter p = [] := by
    rw [List.filter_eq_nil_iff]
    intro r hr
    obtain ⟨j, hj1, hj2, hj3, hjr⟩ := mem_slice hr
    rw [hjr, hpf j hj1 (by omega)]
    simp
  have hB : ((msgs.drop s).take (i + 1 - s)).filter p
      = (msgs.drop s).take (i + 1 - s) := by
    rw [List.filter_eq_self]
    intro r hr
    obtain ⟨j, hj1, hj2, hj3, hjr⟩ := mem_slice hr
    rw [hjr]
    exact hpt j hj1 (by omega)
  rw [hsplit, List.filter_append, hA, hB, List.nil_append]
  rfl

/-- Claim C1 (corrected): for a stream whose records all carry datetime
timestamps, non-decreasing within each track, the accumulator at the moment
record `E` at index `i` is finalized holds exactly the records `R` of `E`'s
track, up to and including `E`, with
`E.timestamp - w ≤ R.timestamp ≤ E.timestamp` — a closed lower bound, not
the strict one the spec states (see the counterexample). -/
theorem c1_window_invariant (cfg : EngCfg) (msgs : List Record) (tsf : ℕ → ℚ)
    (hw : 0 ≤ cfg.w)
    (hts : ∀ j, j < msgs.length →
      pyLookup (msgs.getD j []) "timestamp" = some (Value.dt (tsf j)))
    (hmono : ∀ j, j + 1 < msgs.length →
      trackId (msgs.getD (j + 1) []) = trackId (msgs.getD j []) →
      tsf j ≤ tsf (j + 1)) :
    ∃ tr, processTrace cfg msgs = .ok tr ∧ tr.length = msgs.length ∧
      ∀ i, i < msgs.length →
        (traceStateAt initWState tr (i + 1)).stats
          = windowSpecClosed msgs cfg.w i := by
  obtain ⟨tr, he, hlen, hconcl⟩ :=
    processAux_inv cfg msgs tsf hw hts hmono msgs.length 0 (by omega)
      initWState rfl
  rw [List.drop_zero] at he
  have heT : processTrace cfg msgs = .ok tr := he
  refine ⟨tr, heT, hlen, ?_⟩
  intro i hi
  obtain ⟨hInv, _, _, _⟩ := hconcl i (by omega)
  rw [Nat.zero_add] at hInv
  obtain ⟨hprev, hct, s, hs1, hs2, hsx, hstart, hcnd, hle, hstats⟩ := hInv
  rw [hstats]
  exact slice_eq_windowClosed hts hmono hi hs1 hs2 hcnd hle

/-- Witness for C1 at the spec's scenario: one track at timestamps 0, 1800
and 3700 with a 3600-second window. -/
theorem c1_window_witness :
    ∃ tr, processTrace wcfgW msgsW = .ok tr ∧ tr.length = msgsW.length ∧
      ∀ i, i < msgsW.length →
        (traceStateAt initWState tr (i + 1)).stats
          = windowSpecClosed msgsW wcfgW.w i :=
  c1_window_invariant wcfgW msgsW tsfW (by norm_num [wcfgW])
    (by
      intro j hj
      have hj3 : j < 3 := by simpa [msgsW] using hj
      interval_cases j <;> rfl)
    (by
      intro j hj htr
      have hj3 : j + 1 < 3 := by simpa [msgsW] using hj
      have hj2 : j < 2 := by omega
      interval_cases j <;> norm_num [tsfW])

/-- Counterexample to C1's strict lower bound: two records of one track
exactly one window apart.  The engine's eviction test `te - ts > w` keeps
the first record in the accumulator (closed bound `te - w ≤ ts`), while the
spec's strict window `te - w < ts` excludes it. -/
theorem c1_window_cex :
    ∃ tr, processTrace wcfgW msgsTie = .ok tr ∧
      (traceStateAt initWState tr 2).stats
        = windowSpecClosed msgsTie 3600 1 ∧
      msgsTie.getD 0 [] ∈ (traceStateAt initWState tr 2).stats ∧
      msgsTie.getD 0 [] ∉ windowSpecStrict msgsTie 3600 1 := by
  obtain ⟨tr, he, hlen, hconcl⟩ :=
    processAux_inv wcfgW msgsTie tsfTie (by norm_num [wcfgW])
      (by
        intro j hj
        have hj2 : j < 2 := by simpa [msgsTie] using hj
        interval_cases j <;> rfl)
      (by
        intro j hj htr
        have hj2 : j + 1 < 2 := by simpa [msgsTie] using hj
        have hj1 : j < 1 := by omega
        interval_cases j <;> norm_num [tsfTie])
      2 0 rfl initWState rfl
  rw [List.drop_zero] at he
  have heT : processTrace wcfgW msgsTie = .ok tr := he
  obtain ⟨hInv, _, _, _⟩ := hconcl 1 (by omega)
  have hInv2 : WInv wcfgW msgsTie tsfTie 2 (traceStateAt initWState tr 2) :=
    hInv
  obtain ⟨hprev, hct, s, hs1, hs2, hsx, hstart, hcnd, hle, hstats⟩ := hInv2
  have hts0 : trackStartIdx msgsTie 1 = 0 := rfl
  have hs0 : s = 0 := by
    by_contra hne
    have hpos : 0 < s := Nat.pos_of_ne_zero hne
    have hc := hcnd 0 (by rw [hts0]) hpos
    norm_num [wcfgW, tsfTie] at hc
  subst hs0
  have hclosed : (traceStateAt initWState tr 2).stats
      = windowSpecClosed msgsTie 3600 1 := by
    rw [hstats]
    exact slice_eq_windowClosed
      (by
        intro j hj
        have hj2 : j < 2 := by simpa [msgsTie] using hj
        interval_cases j <;> rfl)
      (by
        intro j hj htr
        have hj2 : j + 1 < 2 := by simpa [msgsTie] using hj
        have hj1 : j < 1 := by omega
        interval_cases j <;> norm_num [tsfTie])
      (by norm_num [msgsTie]) hs1 hs2 hcnd hle
  refine ⟨tr, heT, hclosed, ?_, ?_⟩
  · rw [hstats]
    have hslice : sliceMS msgsTie 0 1 = (msgsTie : Multiset Record) := rfl
    rw [hslice]
    simp [msgsTie]
  · intro hmem
    have hr1 : recTs (msgsTie.getD 1 []) = some ((3600 : ℚ)) := rfl
    simp only [windowSpecStrict, hr1] at hmem
    rw [Multiset.mem_coe, List.mem_filter] at hmem
    obtain ⟨_, hmemb⟩ := hmem
    have hr0 : recTs (msgsTie.getD 0 []) = some ((0 : ℚ)) := rfl
    simp only [hr0] at hmemb
    rw [decide_eq_true_eq] at hmemb
    obtain ⟨hA, _⟩ := hmemb
    norm_num at hA

/-- Claim C2: along any well-typed stream, the window engine's start cursor
index stays at most the end cursor index, never regresses, and on every
track boundary the boundary branch drains the start cursor to the end
cursor's index, installs a fresh empty accumulator, and clears the
previous-start-record memory. -/
theorem c2_cursor_invariants (cfg : EngCfg) (msgs : List Record)
    (tsf : ℕ → ℚ) (hw : 0 ≤ cfg.w)
    (hts : ∀ j, j < msgs.length →
      pyLookup (msgs.getD j []) "timestamp" = some (Value.dt (tsf j)))
    (hmono : ∀ j, j + 1 < msgs.length →
      trackId (msgs.getD (j + 1) []) = trackId (msgs.getD j []) →
      tsf j ≤ tsf (j + 1)) :
    ∃ tr, processTrace cfg msgs = .ok tr ∧ tr.length = msgs.length ∧
      ∀ i, i < msgs.length →
        (traceStateAt initWState tr (i + 1)).startidx ≤ (i : ℤ) ∧
        (traceStateAt initWState tr i).startidx
          ≤ (traceStateAt initWState tr (i + 1)).startidx ∧
        (wBoundary (traceStateAt initWState tr i).current_track
            (msgs.getD i []) = true →
          ∃ stMid, boundaryReset msgs (msgs.length + 2) i (msgs.getD i [])
              (traceStateAt initWState tr i) = .ok stMid ∧
            stMid.startidx = (i : ℤ) ∧ stMid.stats = 0 ∧
            stMid.prev = Option.none ∧
            stMid.current_track = some (msgs.getD i [])) := by
  obtain ⟨tr, he, hlen, hconcl⟩ :=
    processAux_inv cfg msgs tsf hw hts hmono msgs.length 0 (by omega)
      initWState rfl
  rw [List.drop_zero] at he
  have heT : processTrace cfg msgs = .ok tr := he
  refine ⟨tr, heT, hlen, ?_⟩
  intro i hi
  obtain ⟨hInv, _, hmon, hbnd⟩ := hconcl i (by omega)
  rw [Nat.zero_add] at hInv hbnd
  refine ⟨?_, hmon, hbnd⟩
  obtain ⟨hprev, hct, s, hs1, hs2, hsx, hstart, hcnd, hle, hstats⟩ := hInv
  rw [hsx]
  exact_mod_cast hs2

/-- Witness for C2 at the spec's scenario: one track at timestamps 0, 1800
and 3700 with a 3600-second window. -/
theorem c2_cursor_witness :
    ∃ tr, processTrace wcfgW msgsW = .ok tr ∧ tr.length = msgsW.length ∧
      ∀ i, i < msgsW.length →
        (traceStateAt initWState tr (i + 1)).startidx ≤ (i : ℤ) ∧
        (traceStateAt initWState tr i).startidx
          ≤ (traceStateAt initWState tr (i + 1)).startidx ∧
        (wBoundary (traceStateAt initWState tr i).current_track
            (msgsW.getD i []) = true →
          ∃ stMid, boundaryReset msgsW (msgsW.length + 2) i (msgsW.getD i [])
              (traceStateAt initWState tr i) = .ok stMid ∧
            stMid.startidx = (i : ℤ) ∧ stMid.stats = 0 ∧
            stMid.prev = Option.none ∧
            stMid.current_track = some (msgsW.getD i [])) :=
  c2_cursor_invariants wcfgW msgsW tsfW (by norm_num [wcfgW])
    (by
      intro j hj
      have hj3 : j < 3 := by simpa [msgsW] using hj
      interval_cases j <;> rfl)
    (by
      intro j hj htr
      have hj3 : j + 1 < 3 := by simpa [msgsW] using hj
      have hj2 : j < 2 := by omega
      interval_cases j <;> norm_num [tsfW])

/-- Claim C10: on a well-typed stream, `AddWindowMeasures.process` yields
exactly one output record per consumed input record, in input order; each
output is the end record enriched in place, so every input key whose name
does not contain the window suffix keeps its original value, and every key
of the output is either an input key or an aggregate name carrying the
window suffix (optionally with `_log` appended). -/
theorem c10_output_shape (cfg : EngCfg) (msgs : List Record) (tsf : ℕ → ℚ)
    (hw : 0 ≤ cfg.w)
    (hts : ∀ j, j < msgs.length →
      pyLookup (msgs.getD j []) "timestamp" = some (Value.dt (tsf j)))
    (hmono : ∀ j, j + 1 < msgs.length →
      trackId (msgs.getD (j + 1) []) = trackId (msgs.getD j []) →
      tsf j ≤ tsf (j + 1)) :
    ∃ tr, processTrace cfg msgs = .ok tr ∧
      processOutputs cfg msgs = .ok (tr.map Prod.snd) ∧
      tr.length = msgs.length ∧
      ∀ i, i < msgs.length →
        (tr.getD i (initWState, [])).2
          = addMeasuresToRow cfg (traceStateAt initWState tr (i + 1)).stats
              (msgs.getD i []) ∧
        (∀ k, strContains k (winSuffix cfg.w) = false →
          pyLookup (tr.getD i (initWState, [])).2 k
            = pyLookup (msgs.getD i []) k) ∧
        ∀ k, hasKey (tr.getD i (initWState, [])).2 k = true →
          hasKey (msgs.getD i []) k = true ∨
          ∃ b, b ∈ statKeys ∧
            (k = b ++ winSuffix cfg.w ∨ k = b ++ winSuffix cfg.w ++ "_log") := by
  obtain ⟨tr, he, hlen, hconcl⟩ :=
    processAux_inv cfg msgs tsf hw hts hmono msgs.length 0 (by omega)
      initWState rfl
  rw [List.drop_zero] at he
  have heT : processTrace cfg msgs = .ok tr := he
  refine ⟨tr, heT, ?_, hlen, ?_⟩
  · unfold processOutputs
    rw [heT]
    rfl
  · intro i hi
    obtain ⟨_, hout, _, _⟩ := hconcl i (by omega)
    rw [Nat.zero_add] at hout
    refine ⟨hout, ?_, ?_⟩
    · intro k hk
      rw [hout]
      exact addMeasuresToRow_preserves cfg _ _ k hk
    · intro k hk
      rw [hout] at hk
      exact addMeasuresToRow_keys cfg _ _ k hk

/-- Witness for C10 at the spec's scenario. -/
theorem c10_output_witness :
    ∃ tr, processTrace wcfgW msgsW = .ok tr ∧
      processOutputs wcfgW msgsW = .ok (tr.map Prod.snd) ∧
      tr.length = msgsW.length ∧
      ∀ i, i < msgsW.length →
        (tr.getD i (initWState, [])).2
          = addMeasuresToRow wcfgW (traceStateAt initWState tr (i + 1)).stats
              (msgsW.getD i []) ∧
        (∀ k, strContains k (winSuffix wcfgW.w) = false →
          pyLookup (tr.getD i (initWState, [])).2 k
            = pyLookup (msgsW.getD i []) k) ∧
        ∀ k, hasKey (tr.getD i (initWState, [])).2 k = true →
          hasKey (msgsW.getD i []) k = true ∨
          ∃ b, b ∈ statKeys ∧
            (k = b ++ winSuffix wcfgW.w ∨ k = b ++ winSuffix wcfgW.w ++ "_log") :=
  c10_output_shape wcfgW msgsW tsfW (by norm_num [wcfgW])
    (by
      intro j hj
      have hj3 : j < 3 := by simpa [msgsW] using hj
      interval_cases j <;> rfl)
    (by
      intro j hj htr
      have hj3 : j + 1 < 3 := by simpa [msgsW] using hj
      have hj2 : j < 2 := by omega
      interval_cases j <;> norm_num [tsfW])

/-- Claim C5: in every record emitted by a window engine of size `w`, the
combined positional-deviation aggregate is stored under the suffixed key
`"measure_pos" ++ winSuffix w` with value
`min 1 (value * 60 / (w / 60 / 60) / 17)` — unit conversion, division by
the reference speed 17, clamp to at most 1, and at least 0 whenever the
aggregate is non-negative and the window positive — and every key of the
measures dict is an aggregate name suffixed with the window size in whole
seconds (the `stddev` keys additionally in a `_log` variant). -/
theorem c5_pos_transform (cfg : EngCfg) (stats : Multiset Record)
    (r : Record) (hg : 0 ≤ cfg.statsGet stats "measure_pos")
    (hwpos : 0 < cfg.w) :
    pyLookup (addMeasuresToRow cfg stats r) ("measure_pos" ++ winSuffix cfg.w)
      = some (Value.num (min 1 (cfg.statsGet stats "measure_pos" * 60
          / (cfg.w / 60 / 60) / 17))) ∧
    0 ≤ min 1 (cfg.statsGet stats "measure_pos" * 60
        / (cfg.w / 60 / 60) / 17) ∧
    min 1 (cfg.statsGet stats "measure_pos" * 60
        / (cfg.w / 60 / 60) / 17) ≤ 1 ∧
    ∀ kv ∈ windowMeasures cfg stats,
      ∃ b, b ∈ statKeys ∧
        (kv.1 = b ++ winSuffix cfg.w ∨ kv.1 = b ++ winSuffix cfg.w ++ "_log") := by
  refine ⟨addMeasuresToRow_pos cfg stats r, ?_, min_le_left _ _,
    windowMeasures_keys cfg stats⟩
  have hden : 0 < cfg.w / 60 / 60 := by positivity
  have hnum : 0 ≤ cfg.statsGet stats "measure_pos" * 60 := by positivity
  have hX : 0 ≤ cfg.statsGet stats "measure_pos" * 60
      / (cfg.w / 60 / 60) / 17 :=
    div_nonneg (div_nonneg hnum hden.le) (by norm_num)
  exact le_min (by norm_num) hX

/-- Witness for C5 at the concrete configuration: window 3600, an
accumulator returning 0 for every aggregate, applied to the empty record. -/
theorem c5_pos_witness :
    pyLookup (addMeasuresToRow wcfgW 0 [])
        ("measure_pos" ++ winSuffix wcfgW.w)
      = some (Value.num (min 1 (wcfgW.statsGet 0 "measure_pos" * 60
          / (wcfgW.w / 60 / 60) / 17))) ∧
    0 ≤ min 1 (wcfgW.statsGet 0 "measure_pos" * 60
        / (wcfgW.w / 60 / 60) / 17) ∧
    min 1 (wcfgW.statsGet 0 "measure_pos" * 60
        / (wcfgW.w / 60 / 60) / 17) ≤ 1 ∧
    ∀ kv ∈ windowMeasures wcfgW 0,
      ∃ b, b ∈ statKeys ∧
        (kv.1 = b ++ winSuffix wcfgW.w ∨ kv.1 = b ++ winSuffix wcfgW.w ++ "_log") :=
  c5_pos_transform wcfgW 0 [] (by norm_num [wcfgW]) (by norm_num [wcfgW])
